import Mathlib

/-!
Verification of the policy-engine core (top-down evaluator and the
compiler's symbolic safety unifier) against its specification.

The term algebra, the binding environment with `Plug`, the expression
driver and the document-assembly rules are modelled from the
specification (the evaluator sources are not part of the tree; their
behaviour is pinned by the spec and by the expectations of
`topdown_test.go`).  The symbolic safety unifier is embedded directly
from `ast/unify.go`.
-/

set_option maxHeartbeats 1000000

namespace Opa

/-- The tagged value universe of the term algebra (spec §3): null,
booleans, numbers (modelled as integers; the precision of numbers is
irrelevant to the properties proved here), strings, variables,
references (ordered sequences of element terms), arrays, objects
(ordered key/value pairs), sets, and array comprehensions.  A
comprehension carries its head term and its body, modelled as a list of
guard terms; the internal structure of closures is never inspected by
the operations verified here (the var visitor skips closures). -/
inductive Value where
  | null : Value
  | bool : Bool → Value
  | num : Int → Value
  | str : String → Value
  | var : String → Value
  | ref : List Value → Value
  | arr : List Value → Value
  | obj : List (Value × Value) → Value
  | set : List Value → Value
  | acomp : Value → List Value → Value
  deriving Repr

namespace Value

mutual

/-- Syntactic (order-sensitive) equality test on values. -/
def beqV : Value → Value → Bool
  | .null, .null => true
  | .bool a, .bool b => a == b
  | .num a, .num b => a == b
  | .str a, .str b => a == b
  | .var a, .var b => a == b
  | .ref as, .ref bs => beqL as bs
  | .arr as, .arr bs => beqL as bs
  | .obj as, .obj bs => beqP as bs
  | .set as, .set bs => beqL as bs
  | .acomp h hs, .acomp g gs => beqV h g && beqL hs gs
  | _, _ => false

/-- Syntactic equality of term lists. -/
def beqL : List Value → List Value → Bool
  | [], [] => true
  | a :: as, b :: bs => beqV a b && beqL as bs
  | _, _ => false

/-- Syntactic equality of key/value pair lists. -/
def beqP : List (Value × Value) → List (Value × Value) → Bool
  | [], [] => true
  | p :: as, q :: bs => beqV p.1 q.1 && beqV p.2 q.2 && beqP as bs
  | _, _ => false

end

/-- Induction over values with hypotheses for members of the nested
lists; used throughout in place of the automatically generated
recursor. -/
theorem myInduction (motive : Value → Prop)
    (hnull : motive .null) (hbool : ∀ b, motive (.bool b))
    (hnum : ∀ n, motive (.num n)) (hstr : ∀ s, motive (.str s))
    (hvar : ∀ x, motive (.var x))
    (href : ∀ as, (∀ a ∈ as, motive a) → motive (.ref as))
    (harr : ∀ as, (∀ a ∈ as, motive a) → motive (.arr as))
    (hobj : ∀ ps, (∀ p ∈ ps, motive (Prod.fst p) ∧ motive (Prod.snd p)) →
      motive (.obj ps))
    (hset : ∀ as, (∀ a ∈ as, motive a) → motive (.set as))
    (hacomp : ∀ h hs, motive h → (∀ a ∈ hs, motive a) → motive (.acomp h hs)) :
    ∀ v, motive v := by
  have key : ∀ n (v : Value), sizeOf v ≤ n → motive v := by
    intro n
    induction n with
    | zero =>
      intro v hv
      exfalso
      cases v <;> simp at hv
    | succ n ih =>
      intro v hv
      have hmem : ∀ (as : List Value), sizeOf as ≤ n + 1 →
          ∀ a ∈ as, motive a := by
        intro as has a ha
        apply ih
        have h1 := List.sizeOf_lt_of_mem ha
        omega
      cases v with
      | null => exact hnull
      | bool b => exact hbool b
      | num m => exact hnum m
      | str s => exact hstr s
      | var x => exact hvar x
      | ref as =>
        apply href
        apply hmem
        simp at hv
        omega
      | arr as =>
        apply harr
        apply hmem
        simp at hv
        omega
      | set as =>
        apply hset
        apply hmem
        simp at hv
        omega
      | obj ps =>
        apply hobj
        intro p hp
        have h1 := List.sizeOf_lt_of_mem hp
        have h2 : sizeOf (Prod.fst p) < sizeOf p ∧ sizeOf (Prod.snd p) < sizeOf p := by
          cases p
          simp
          omega
        simp at hv
        constructor <;> (apply ih; omega)
      | acomp h hs =>
        simp at hv
        apply hacomp
        · apply ih; omega
        · apply hmem; omega
  intro v
  exact key (sizeOf v) v le_rfl

theorem beqL_iff_of (as : List Value)
    (iha : ∀ a ∈ as, ∀ b, beqV a b = true ↔ a = b) :
    ∀ bs, beqL as bs = true ↔ as = bs := by
  induction as with
  | nil => intro bs; cases bs <;> simp [beqL]
  | cons a as ih =>
    intro bs
    cases bs with
    | nil => simp [beqL]
    | cons b bs =>
      have h1 := iha a (by simp) b
      have h2 := ih (fun x hx => iha x (by simp [hx])) bs
      simp [beqL, h1, h2]

theorem beqP_iff_of (ps : List (Value × Value))
    (iha : ∀ p ∈ ps, (∀ b, beqV (Prod.fst p) b = true ↔ Prod.fst p = b) ∧
      (∀ b, beqV (Prod.snd p) b = true ↔ Prod.snd p = b)) :
    ∀ qs, beqP ps qs = true ↔ ps = qs := by
  induction ps with
  | nil => intro qs; cases qs <;> simp [beqP]
  | cons p ps ih =>
    intro qs
    cases qs with
    | nil => simp [beqP]
    | cons q qs =>
      have h1 := (iha p (by simp)).1 q.1
      have h2 := (iha p (by simp)).2 q.2
      have h3 := ih (fun x hx => iha x (by simp [hx])) qs
      simp [beqP, h1, h2, h3, Prod.ext_iff]

theorem beqV_iff : ∀ a b : Value, beqV a b = true ↔ a = b := by
  intro a
  induction a using myInduction with
  | hnull => intro b; cases b <;> simp [beqV]
  | hbool x => intro b; cases b <;> simp [beqV]
  | hnum x => intro b; cases b <;> simp [beqV]
  | hstr x => intro b; cases b <;> simp [beqV]
  | hvar x => intro b; cases b <;> simp [beqV]
  | href as ih =>
    intro b
    cases b <;> simp [beqV]
    exact beqL_iff_of as ih _
  | harr as ih =>
    intro b
    cases b <;> simp [beqV]
    exact beqL_iff_of as ih _
  | hset as ih =>
    intro b
    cases b <;> simp [beqV]
    exact beqL_iff_of as ih _
  | hobj ps ih =>
    intro b
    cases b <;> simp [beqV]
    exact beqP_iff_of ps (fun p hp => ⟨(ih p hp).1, (ih p hp).2⟩) _
  | hacomp h hs ihh ihl =>
    intro b
    cases b <;> simp [beqV]
    simp [ihh, beqL_iff_of hs ihl]

instance : DecidableEq Value := fun a b =>
  decidable_of_iff (beqV a b = true) (beqV_iff a b)

mutual

/-- Structural, recursive logical equality (spec §4.1): object equality
ignores key order, set equality ignores element order (multiplicity is
always one); arrays and references compare elementwise in order. -/
def equal : Value → Value → Bool
  | .null, .null => true
  | .bool a, .bool b => a == b
  | .num a, .num b => a == b
  | .str a, .str b => a == b
  | .var a, .var b => a == b
  | .ref as, .ref bs => equalList as bs
  | .arr as, .arr bs => equalList as bs
  | .obj as, .obj bs => as.length == bs.length && subObj as bs && subObj bs as
  | .set as, .set bs => as.length == bs.length && subSet as bs && subSet bs as
  | .acomp h hs, .acomp g gs => equal h g && equalList hs gs
  | _, _ => false
termination_by a b => sizeOf a + sizeOf b
decreasing_by all_goals (simp_wf <;> omega)

/-- Ordered elementwise logical equality of term lists. -/
def equalList : List Value → List Value → Bool
  | [], [] => true
  | a :: as, b :: bs => equal a b && equalList as bs
  | _, _ => false
termination_by as bs => sizeOf as + sizeOf bs
decreasing_by all_goals (simp_wf <;> omega)

/-- Does a key/value pair occur (up to logical equality) in a pair list? -/
def memObj : Value × Value → List (Value × Value) → Bool
  | _, [] => false
  | p, q :: qs => (equal p.1 q.1 && equal p.2 q.2) || memObj p qs
termination_by p qs => sizeOf p + sizeOf qs
decreasing_by all_goals
  (obtain ⟨p1, p2⟩ := p) <;> (try obtain ⟨q1, q2⟩ := q) <;> (simp_wf <;> omega)

/-- Is every pair of the first list present in the second (up to logical
equality)? -/
def subObj : List (Value × Value) → List (Value × Value) → Bool
  | [], _ => true
  | p :: ps, qs => memObj p qs && subObj ps qs
termination_by ps qs => sizeOf ps + sizeOf qs
decreasing_by all_goals (simp_wf <;> omega)

/-- Does a value occur (up to logical equality) in an element list? -/
def memSet : Value → List Value → Bool
  | _, [] => false
  | a, b :: bs => equal a b || memSet a bs
termination_by a bs => sizeOf a + sizeOf bs
decreasing_by all_goals (simp_wf <;> omega)

/-- Is every element of the first list present in the second (up to
logical equality)? -/
def subSet : List Value → List Value → Bool
  | [], _ => true
  | a :: as, bs => memSet a bs && subSet as bs
termination_by as bs => sizeOf as + sizeOf bs
decreasing_by all_goals (simp_wf <;> omega)

end

theorem memObj_eq (p : Value × Value) (qs : List (Value × Value)) :
    memObj p qs = qs.any (fun q => equal p.1 q.1 && equal p.2 q.2) := by
  induction qs with
  | nil => simp [memObj]
  | cons q qs ih => simp [memObj, ih]

theorem subObj_eq (ps qs : List (Value × Value)) :
    subObj ps qs = ps.all (fun p => memObj p qs) := by
  induction ps with
  | nil => simp [subObj]
  | cons p ps ih => simp [subObj, ih]

theorem memSet_eq (a : Value) (bs : List Value) :
    memSet a bs = bs.any (fun b => equal a b) := by
  induction bs with
  | nil => simp [memSet]
  | cons b bs ih => simp [memSet, ih]

theorem subSet_eq (as bs : List Value) :
    subSet as bs = as.all (fun a => memSet a bs) := by
  induction as with
  | nil => simp [subSet]
  | cons a as ih => simp [subSet, ih]

theorem equalList_iff (as : List Value) : ∀ bs,
    equalList as bs = true ↔
      as.length = bs.length ∧ ∀ p ∈ as.zip bs, equal p.1 p.2 = true := by
  induction as with
  | nil => intro bs; cases bs <;> simp [equalList]
  | cons a as ih =>
    intro bs
    cases bs with
    | nil => simp [equalList]
    | cons b bs =>
      simp [equalList, ih bs]
      tauto

theorem equalList_refl_of (as : List Value)
    (ih : ∀ a ∈ as, equal a a = true) : equalList as as = true := by
  induction as with
  | nil => simp [equalList]
  | cons a as iha =>
    simp [equalList, ih a (by simp)]
    exact iha (fun x hx => ih x (by simp [hx]))

theorem subObj_refl_of (ps : List (Value × Value))
    (ih : ∀ p ∈ ps, equal (Prod.fst p) (Prod.fst p) = true ∧
      equal (Prod.snd p) (Prod.snd p) = true) : subObj ps ps = true := by
  rw [subObj_eq]
  simp only [List.all_eq_true]
  intro p hp
  rw [memObj_eq]
  simp only [List.any_eq_true]
  exact ⟨p, hp, by simp [(ih p hp).1, (ih p hp).2]⟩

theorem subSet_refl_of (as : List Value)
    (ih : ∀ a ∈ as, equal a a = true) : subSet as as = true := by
  rw [subSet_eq]
  simp only [List.all_eq_true]
  intro a ha
  rw [memSet_eq]
  simp only [List.any_eq_true]
  exact ⟨a, ha, ih a ha⟩

/-- Logical equality is reflexive. -/
theorem equal_refl : ∀ a : Value, equal a a = true := by
  intro a
  induction a using myInduction with
  | hnull => simp [equal]
  | hbool x => simp [equal]
  | hnum x => simp [equal]
  | hstr x => simp [equal]
  | hvar x => simp [equal]
  | href as ih => simp [equal, equalList_refl_of as ih]
  | harr as ih => simp [equal, equalList_refl_of as ih]
  | hobj ps ih => simp [equal, subObj_refl_of ps ih]
  | hset as ih => simp [equal, subSet_refl_of as ih]
  | hacomp h hs ihh ihl => simp [equal, ihh, equalList_refl_of hs ihl]

theorem beqComm {α : Type _} [BEq α] [LawfulBEq α] (a b : α) :
    (a == b) = (b == a) := by
  rw [Bool.eq_iff_iff]
  simp only [beq_iff_eq]
  exact eq_comm

theorem andTriple (n m : Nat) (x y : Bool) :
    (n == m && x && y) = (m == n && y && x) := by
  cases x <;> cases y <;> simp [beqComm n m]

/-- Logical equality is symmetric: the two directional inclusion tests of
objects and sets swap places and the ordered cases commute elementwise. -/
theorem equal_symm : ∀ a b : Value, equal a b = equal b a := by
  have hlist : ∀ as : List Value, (∀ a ∈ as, ∀ b, equal a b = equal b a) →
      ∀ bs, equalList as bs = equalList bs as := by
    intro as ih
    induction as with
    | nil => intro bs; cases bs <;> simp [equalList]
    | cons a as iha =>
      intro bs
      cases bs with
      | nil => simp [equalList]
      | cons b bs =>
        simp only [equalList]
        rw [ih a (by simp) b, iha (fun x hx => ih x (by simp [hx])) bs]
  intro a
  induction a using myInduction with
  | hnull => intro b; cases b <;> simp [equal]
  | hbool x =>
    intro b
    cases b <;> first
      | (simp only [equal]; exact beqComm _ _)
      | simp [equal]
  | hnum x =>
    intro b
    cases b <;> first
      | (simp only [equal]; exact beqComm _ _)
      | simp [equal]
  | hstr x =>
    intro b
    cases b <;> first
      | (simp only [equal]; exact beqComm _ _)
      | simp [equal]
  | hvar x =>
    intro b
    cases b <;> first
      | (simp only [equal]; exact beqComm _ _)
      | simp [equal]
  | href as ih =>
    intro b
    cases b <;> first
      | (simp only [equal]; exact hlist as ih _)
      | simp [equal]
  | harr as ih =>
    intro b
    cases b <;> first
      | (simp only [equal]; exact hlist as ih _)
      | simp [equal]
  | hobj ps ih =>
    intro b
    cases b <;> first
      | (simp only [equal]; exact andTriple _ _ _ _)
      | simp [equal]
  | hset as ih =>
    intro b
    cases b <;> first
      | (simp only [equal]; exact andTriple _ _ _ _)
      | simp [equal]
  | hacomp h hs ihh ihl =>
    intro b
    cases b <;> first
      | (simp only [equal]; rw [ihh, hlist hs ihl])
      | simp [equal]

theorem subObj_iff (ps qs : List (Value × Value)) :
    subObj ps qs = true ↔ ∀ p ∈ ps, ∃ q ∈ qs,
      equal (Prod.fst p) (Prod.fst q) = true ∧
        equal (Prod.snd p) (Prod.snd q) = true := by
  rw [subObj_eq]
  simp only [List.all_eq_true]
  constructor
  · intro h p hp
    have := h p hp
    rw [memObj_eq] at this
    simp only [List.any_eq_true, Bool.and_eq_true] at this
    exact this
  · intro h p hp
    rw [memObj_eq]
    simp only [List.any_eq_true, Bool.and_eq_true]
    exact h p hp

theorem subSet_iff (as bs : List Value) :
    subSet as bs = true ↔ ∀ a ∈ as, ∃ b ∈ bs, equal a b = true := by
  rw [subSet_eq]
  simp only [List.all_eq_true]
  constructor
  · intro h a ha
    have := h a ha
    rw [memSet_eq] at this
    simp only [List.any_eq_true] at this
    exact this
  · intro h a ha
    rw [memSet_eq]
    simp only [List.any_eq_true]
    exact h a ha

theorem equal_obj_iff (ps qs : List (Value × Value)) :
    equal (.obj ps) (.obj qs) = true ↔
      ps.length = qs.length ∧
      (∀ p ∈ ps, ∃ q ∈ qs, equal (Prod.fst p) (Prod.fst q) = true ∧
        equal (Prod.snd p) (Prod.snd q) = true) ∧
      (∀ q ∈ qs, ∃ p ∈ ps, equal (Prod.fst q) (Prod.fst p) = true ∧
        equal (Prod.snd q) (Prod.snd p) = true) := by
  simp only [equal, Bool.and_eq_true, beq_iff_eq, subObj_iff]
  tauto

theorem equal_set_iff (as bs : List Value) :
    equal (.set as) (.set bs) = true ↔
      as.length = bs.length ∧
      (∀ a ∈ as, ∃ b ∈ bs, equal a b = true) ∧
      (∀ b ∈ bs, ∃ a ∈ as, equal b a = true) := by
  simp only [equal, Bool.and_eq_true, beq_iff_eq, subSet_iff]
  tauto

/-- Logical equality is transitive. -/
theorem equal_trans : ∀ a b c : Value,
    equal a b = true → equal b c = true → equal a c = true := by
  have hlist : ∀ as : List Value,
      (∀ a ∈ as, ∀ b c, equal a b = true → equal b c = true →
        equal a c = true) →
      ∀ bs cs, equalList as bs = true → equalList bs cs = true →
        equalList as cs = true := by
    intro as ih
    induction as with
    | nil =>
      intro bs cs h1 h2
      cases bs with
      | nil => exact h2
      | cons b bs => simp [equalList] at h1
    | cons a as iha =>
      intro bs cs h1 h2
      cases bs with
      | nil => simp [equalList] at h1
      | cons b bs =>
        cases cs with
        | nil => simp [equalList] at h2
        | cons c cs =>
          simp only [equalList, Bool.and_eq_true] at h1 h2 ⊢
          exact ⟨ih a (by simp) b c h1.1 h2.1,
            iha (fun x hx => ih x (by simp [hx])) bs cs h1.2 h2.2⟩
  intro a
  induction a using myInduction with
  | hnull =>
    intro b c hab hbc
    cases b <;> first
      | (exfalso; revert hab; simp [equal]; done)
      | exact hbc
  | hbool x =>
    intro b c hab hbc
    cases b <;> first
      | (exfalso; revert hab; simp [equal]; done)
      | (cases c <;> first
          | (exfalso; revert hbc; simp [equal]; done)
          | (simp only [equal, beq_iff_eq] at hab hbc ⊢
             exact hab.trans hbc))
  | hnum x =>
    intro b c hab hbc
    cases b <;> first
      | (exfalso; revert hab; simp [equal]; done)
      | (cases c <;> first
          | (exfalso; revert hbc; simp [equal]; done)
          | (simp only [equal, beq_iff_eq] at hab hbc ⊢
             exact hab.trans hbc))
  | hstr x =>
    intro b c hab hbc
    cases b <;> first
      | (exfalso; revert hab; simp [equal]; done)
      | (cases c <;> first
          | (exfalso; revert hbc; simp [equal]; done)
          | (simp only [equal, beq_iff_eq] at hab hbc ⊢
             exact hab.trans hbc))
  | hvar x =>
    intro b c hab hbc
    cases b <;> first
      | (exfalso; revert hab; simp [equal]; done)
      | (cases c <;> first
          | (exfalso; revert hbc; simp [equal]; done)
          | (simp only [equal, beq_iff_eq] at hab hbc ⊢
             exact hab.trans hbc))
  | href as ih =>
    intro b c hab hbc
    cases b <;> first
      | (exfalso; revert hab; simp [equal]; done)
      | (cases c <;> first
          | (exfalso; revert hbc; simp [equal]; done)
          | (simp only [equal] at hab hbc ⊢
             exact hlist as ih _ _ hab hbc))
  | harr as ih =>
    intro b c hab hbc
    cases b <;> first
      | (exfalso; revert hab; simp [equal]; done)
      | (cases c <;> first
          | (exfalso; revert hbc; simp [equal]; done)
          | (simp only [equal] at hab hbc ⊢
             exact hlist as ih _ _ hab hbc))
  | hobj ps ih =>
    intro b c hab hbc
    cases b <;> first
      | (exfalso; revert hab; simp [equal]; done)
      | (cases c <;> first
          | (exfalso; revert hbc; simp [equal]; done)
          | (rw [equal_obj_iff] at hab hbc ⊢
             obtain ⟨hl1, h12, h21⟩ := hab
             obtain ⟨hl2, h23, h32⟩ := hbc
             refine ⟨hl1.trans hl2, ?_, ?_⟩
             · intro p hp
               obtain ⟨q, hq, e1, e2⟩ := h12 p hp
               obtain ⟨r, hr, f1, f2⟩ := h23 q hq
               exact ⟨r, hr, (ih p hp).1 _ _ e1 f1, (ih p hp).2 _ _ e2 f2⟩
             · intro r hr
               obtain ⟨q, hq, f1, f2⟩ := h32 r hr
               obtain ⟨p, hp, e1, e2⟩ := h21 q hq
               refine ⟨p, hp, ?_, ?_⟩
               · have := (ih p hp).1 _ _ (by rw [equal_symm]; exact e1)
                   (by rw [equal_symm]; exact f1)
                 rw [equal_symm]; exact this
               · have := (ih p hp).2 _ _ (by rw [equal_symm]; exact e2)
                   (by rw [equal_symm]; exact f2)
                 rw [equal_symm]; exact this))
  | hset as ih =>
    intro b c hab hbc
    cases b <;> first
      | (exfalso; revert hab; simp [equal]; done)
      | (cases c <;> first
          | (exfalso; revert hbc; simp [equal]; done)
          | (rw [equal_set_iff] at hab hbc ⊢
             obtain ⟨hl1, h12, h21⟩ := hab
             obtain ⟨hl2, h23, h32⟩ := hbc
             refine ⟨hl1.trans hl2, ?_, ?_⟩
             · intro x hx
               obtain ⟨y, hy, e1⟩ := h12 x hx
               obtain ⟨z, hz, f1⟩ := h23 y hy
               exact ⟨z, hz, ih x hx _ _ e1 f1⟩
             · intro z hz
               obtain ⟨y, hy, f1⟩ := h32 z hz
               obtain ⟨x, hx, e1⟩ := h21 y hy
               refine ⟨x, hx, ?_⟩
               have := ih x hx _ _ (by rw [equal_symm]; exact e1)
                 (by rw [equal_symm]; exact f1)
               rw [equal_symm]; exact this))
  | hacomp h hs ihh ihl =>
    intro b c hab hbc
    cases b <;> first
      | (exfalso; revert hab; simp [equal]; done)
      | (cases c <;> first
          | (exfalso; revert hbc; simp [equal]; done)
          | (simp only [equal, Bool.and_eq_true] at hab hbc ⊢
             exact ⟨ihh _ _ hab.1 hbc.1, hlist hs ihl _ _ hab.2 hbc.2⟩))

end Value

/-- A binding environment (spec §3): an ordered mapping from a key term
(typically a `var`, but also a ground `ref`) to a target value.  Lookup
is by syntactic key identity. -/
def lookupBinding : List (Value × Value) → Value → Option Value
  | [], _ => none
  | (k, w) :: rest, v => if k = v then some w else lookupBinding rest v

/-- The keys bound by an environment. -/
def envKeys (env : List (Value × Value)) : List Value := env.map Prod.fst

theorem lookupBinding_isSome_iff (env : List (Value × Value)) (v : Value) :
    (lookupBinding env v).isSome = true ↔ v ∈ envKeys env := by
  induction env with
  | nil => simp [lookupBinding, envKeys]
  | cons p rest ih =>
    obtain ⟨k, w⟩ := p
    by_cases h : k = v
    · simp [lookupBinding, envKeys, h]
    · simp [lookupBinding, envKeys, h, ih]
      intro he
      exact absurd he.symm h

theorem lookupBinding_none_iff (env : List (Value × Value)) (v : Value) :
    lookupBinding env v = none ↔ v ∉ envKeys env := by
  rw [← lookupBinding_isSome_iff]
  cases lookupBinding env v <;> simp

/-- How many bound keys are not yet on the `seen` stack; the part of the
termination measure of `Plug` that shrinks at every chain step. -/
def unseenKeys (env : List (Value × Value)) (seen : List Value) : Nat :=
  ((envKeys env).filter (fun k => decide (k ∉ seen))).length

theorem filter_length_mono {α : Type _} (l : List α) (p q : α → Bool)
    (h : ∀ x ∈ l, p x = true → q x = true) :
    (l.filter p).length ≤ (l.filter q).length := by
  induction l with
  | nil => simp
  | cons a l ih =>
    have ih2 := ih (fun x hx => h x (by simp [hx]))
    by_cases hp : p a = true
    · rw [List.filter_cons_of_pos hp, List.filter_cons_of_pos (h a (by simp) hp)]
      simpa using ih2
    · rw [List.filter_cons_of_neg (by simpa using hp)]
      by_cases hq : q a = true
      · rw [List.filter_cons_of_pos hq]
        simp
        omega
      · rw [List.filter_cons_of_neg (by simpa using hq)]
        exact ih2

theorem filter_cons_lt (l : List Value) (seen : List Value) (v : Value)
    (hv : v ∈ l) (hs : v ∉ seen) :
    (l.filter (fun k => decide (k ∉ (v :: seen)))).length <
      (l.filter (fun k => decide (k ∉ seen))).length := by
  induction l with
  | nil => simp at hv
  | cons k ks ih =>
    by_cases hkv : k = v
    · subst hkv
      rw [List.filter_cons_of_neg (by simp), List.filter_cons_of_pos (by simpa using hs)]
      have hm := filter_length_mono ks
        (fun x => decide (x ∉ (k :: seen))) (fun x => decide (x ∉ seen))
        (by
          intro x _ hx
          simp at hx ⊢
          exact hx.2)
      exact Nat.lt_succ_of_le hm
    · by_cases hks : k ∈ seen
      · rw [List.filter_cons_of_neg (by simp [hks]),
          List.filter_cons_of_neg (by simp [hks])]
        exact ih (by rcases List.mem_cons.mp hv with h | h
                     · exact absurd h (fun e => hkv e.symm)
                     · exact h)
      · rw [List.filter_cons_of_pos (by simp [hks, hkv]),
          List.filter_cons_of_pos (by simpa using hks)]
        have hv2 : v ∈ ks := by
          rcases List.mem_cons.mp hv with h | h
          · exact absurd h.symm hkv
          · exact h
        simpa using ih hv2

theorem unseenKeys_cons_lt (env : List (Value × Value)) (seen : List Value)
    (v : Value) (hv : v ∈ envKeys env) (hs : v ∉ seen) :
    unseenKeys env (v :: seen) < unseenKeys env seen :=
  filter_cons_lt (envKeys env) seen v hv hs

theorem unseenKeys_cons_le (env : List (Value × Value)) (seen : List Value)
    (v : Value) : unseenKeys env (v :: seen) ≤ unseenKeys env seen := by
  apply filter_length_mono
  intro x _ hx
  simp at hx ⊢
  exact hx.2

theorem lexNat_helper (a1 b1 a2 b2 : Nat) (h1 : a1 ≤ a2) (h2 : b1 < b2) :
    Prod.Lex (fun x y : Nat => x < y) (fun x y : Nat => x < y) (a1, b1) (a2, b2) := by
  rcases Nat.lt_or_eq_of_le h1 with h | h
  · exact Prod.Lex.left _ _ h
  · subst h
    exact Prod.Lex.right _ h2

theorem unseenKeys_cons_eq (env : List (Value × Value)) (seen : List Value)
    (v : Value) (hv : v ∉ envKeys env) :
    unseenKeys env (v :: seen) = unseenKeys env seen := by
  unfold unseenKeys
  congr 1
  apply List.filter_congr
  intro x hx
  have hxv : x ≠ v := fun e => hv (e ▸ hx)
  simp [hxv]

theorem lookupBinding_some_mem (env : List (Value × Value)) (v w : Value)
    (h : lookupBinding env v = some w) : v ∈ envKeys env := by
  rw [← lookupBinding_isSome_iff, h]
  rfl

mutual

/-- `PlugValue` (spec §4.2): rewrites a term by replacing each sub-term
that has a binding with its (recursively plugged) bound value, following
binding chains.  Repeats are detected through the on-stack set `seen`:
a chain stops at the deepest reference whose successor is already on the
stack (or maps to itself), and a term already on the stack is returned
unchanged.  Object keys are plugged like any other position; closures
(comprehensions) are left intact. -/
def plugVal (env : List (Value × Value)) (seen : List Value) (v : Value) :
    Value :=
  if hseen : v ∈ seen then v
  else
    match hlook : lookupBinding env v with
    | some w => if w = v ∨ w ∈ seen then v else plugVal env (v :: seen) w
    | none =>
      match v with
      | .ref es => .ref (plugList env (v :: seen) es)
      | .arr es => .arr (plugList env (v :: seen) es)
      | .obj ps => .obj (plugPairs env (v :: seen) ps)
      | .set es => .set (plugList env (v :: seen) es)
      | x => x
termination_by (unseenKeys env seen, sizeOf v)
decreasing_by
  · exact Prod.Lex.left _ _
      (unseenKeys_cons_lt env seen v (lookupBinding_some_mem env v w hlook) hseen)
  · exact lexNat_helper _ _ _ _ (unseenKeys_cons_le env seen v) (by simp)
  · exact lexNat_helper _ _ _ _ (unseenKeys_cons_le env seen v) (by simp)
  · exact lexNat_helper _ _ _ _ (unseenKeys_cons_le env seen v) (by simp)
  · exact lexNat_helper _ _ _ _ (unseenKeys_cons_le env seen v) (by simp)

/-- Plug every element of a term list. -/
def plugList (env : List (Value × Value)) (seen : List Value) :
    List Value → List Value
  | [] => []
  | e :: es => plugVal env seen e :: plugList env seen es
termination_by es => (unseenKeys env seen, sizeOf es)
decreasing_by
  · exact Prod.Lex.right _ (by simp; omega)
  · exact Prod.Lex.right _ (by simp)

/-- Plug every key and value of a pair list. -/
def plugPairs (env : List (Value × Value)) (seen : List Value) :
    List (Value × Value) → List (Value × Value)
  | [] => []
  | (k, x) :: ps => (plugVal env seen k, plugVal env seen x) :: plugPairs env seen ps
termination_by ps => (unseenKeys env seen, sizeOf ps)
decreasing_by
  · exact Prod.Lex.right _ (by simp; omega)
  · exact Prod.Lex.right _ (by simp; omega)
  · exact Prod.Lex.right _ (by simp)

end

/-- `Plug` of a term under a binding environment (fresh stack). -/
def PlugValue (env : List (Value × Value)) (v : Value) : Value :=
  plugVal env [] v

mutual

/-- Does `x` occur as a syntactic sub-term of `t` (the term itself
included)?  Closures are opaque: a comprehension is only matched as a
whole, mirroring the fact that `Plug` leaves closures intact. -/
def occursIn (x : Value) : Value → Bool
  | .ref es => decide (x = .ref es) || occursList x es
  | .arr es => decide (x = .arr es) || occursList x es
  | .obj ps => decide (x = .obj ps) || occursPairs x ps
  | .set es => decide (x = .set es) || occursList x es
  | t => decide (x = t)
termination_by t => sizeOf t
decreasing_by all_goals (simp_wf <;> omega)

/-- Does `x` occur in some element of a term list? -/
def occursList (x : Value) : List Value → Bool
  | [] => false
  | e :: es => occursIn x e || occursList x es
termination_by es => sizeOf es
decreasing_by all_goals (simp_wf <;> omega)

/-- Does `x` occur in some key or value of a pair list? -/
def occursPairs (x : Value) : List (Value × Value) → Bool
  | [] => false
  | p :: ps => occursIn x p.1 || occursIn x p.2 || occursPairs x ps
termination_by ps => sizeOf ps
decreasing_by all_goals ((obtain ⟨p1, p2⟩ := p) <;> simp_wf <;> omega)

end

theorem occursList_exists (x : Value) (es : List Value) :
    occursList x es = true ↔ ∃ e ∈ es, occursIn x e = true := by
  induction es with
  | nil => simp [occursList]
  | cons e es ih => simp [occursList, ih]

theorem occursPairs_exists (x : Value) (ps : List (Value × Value)) :
    occursPairs x ps = true ↔ ∃ p ∈ ps,
      occursIn x (Prod.fst p) = true ∨ occursIn x (Prod.snd p) = true := by
  induction ps with
  | nil => simp [occursPairs]
  | cons p ps ih =>
    simp only [occursPairs, Bool.or_eq_true, ih]
    constructor
    · rintro ((h | h) | ⟨q, hq, hocc⟩)
      · exact ⟨p, by simp, Or.inl h⟩
      · exact ⟨p, by simp, Or.inr h⟩
      · exact ⟨q, by simp [hq], hocc⟩
    · rintro ⟨q, hq, hocc⟩
      rcases List.mem_cons.mp hq with rfl | hq2
      · exact Or.inl (by tauto)
      · exact Or.inr ⟨q, hq2, hocc⟩



theorem occursIn_self (x : Value) : occursIn x x = true := by
  cases x <;> simp [occursIn]

/-- Occurrence is transitive through sub-term chains. -/
theorem occurs_trans : ∀ c a b : Value, occursIn a b = true →
    occursIn b c = true → occursIn a c = true := by
  intro c
  induction c using Value.myInduction with
  | hnull =>
    intro a b hab hbc
    simp [occursIn] at hbc
    subst hbc
    exact hab
  | hbool x =>
    intro a b hab hbc
    simp [occursIn] at hbc
    subst hbc
    exact hab
  | hnum x =>
    intro a b hab hbc
    simp [occursIn] at hbc
    subst hbc
    exact hab
  | hstr x =>
    intro a b hab hbc
    simp [occursIn] at hbc
    subst hbc
    exact hab
  | hvar x =>
    intro a b hab hbc
    simp [occursIn] at hbc
    subst hbc
    exact hab
  | hacomp h hs ihh ihl =>
    intro a b hab hbc
    simp [occursIn] at hbc
    subst hbc
    exact hab
  | href as ih =>
    intro a b hab hbc
    simp only [occursIn, Bool.or_eq_true, decide_eq_true_eq] at hbc ⊢
    rcases hbc with h | h
    · subst h
      simp only [occursIn, Bool.or_eq_true, decide_eq_true_eq] at hab
      exact hab
    · rw [occursList_exists] at h ⊢
      obtain ⟨e, he, hocc⟩ := h
      exact Or.inr ⟨e, he, ih e he a b hab hocc⟩
  | harr as ih =>
    intro a b hab hbc
    simp only [occursIn, Bool.or_eq_true, decide_eq_true_eq] at hbc ⊢
    rcases hbc with h | h
    · subst h
      simp only [occursIn, Bool.or_eq_true, decide_eq_true_eq] at hab
      exact hab
    · rw [occursList_exists] at h ⊢
      obtain ⟨e, he, hocc⟩ := h
      exact Or.inr ⟨e, he, ih e he a b hab hocc⟩
  | hset as ih =>
    intro a b hab hbc
    simp only [occursIn, Bool.or_eq_true, decide_eq_true_eq] at hbc ⊢
    rcases hbc with h | h
    · subst h
      simp only [occursIn, Bool.or_eq_true, decide_eq_true_eq] at hab
      exact hab
    · rw [occursList_exists] at h ⊢
      obtain ⟨e, he, hocc⟩ := h
      exact Or.inr ⟨e, he, ih e he a b hab hocc⟩
  | hobj ps ih =>
    intro a b hab hbc
    simp only [occursIn, Bool.or_eq_true, decide_eq_true_eq] at hbc ⊢
    rcases hbc with h | h
    · subst h
      simp only [occursIn, Bool.or_eq_true, decide_eq_true_eq] at hab
      exact hab
    · rw [occursPairs_exists] at h ⊢
      obtain ⟨q, hq, hocc⟩ := h
      rcases hocc with hocc | hocc
      · exact Or.inr ⟨q, hq, Or.inl ((ih q hq).1 a b hab hocc)⟩
      · exact Or.inr ⟨q, hq, Or.inr ((ih q hq).2 a b hab hocc)⟩

/-- No bound key of the environment occurs anywhere in `t`. -/
def KeyFree (env : List (Value × Value)) (t : Value) : Prop :=
  ∀ k ∈ envKeys env, occursIn k t = false

/-- Every key of the environment is a variable. -/
def VarKeys (env : List (Value × Value)) : Prop :=
  ∀ k ∈ envKeys env, ∃ x, k = Value.var x

/-- A resolved environment: every key is a variable and no bound key
occurs in any bound value. -/
def Resolved (env : List (Value × Value)) : Prop :=
  VarKeys env ∧ ∀ p ∈ env, ∀ k ∈ envKeys env, occursIn k (Prod.snd p) = false

theorem keyfree_child (env : List (Value × Value)) {t c : Value}
    (hkf : KeyFree env t) (hc : occursIn c t = true) : KeyFree env c := by
  intro k hk
  by_contra h
  have h2 : occursIn k c = true := by
    cases hx : occursIn k c
    · exact absurd hx h
    · rfl
  have h3 := occurs_trans t k c h2 hc
  rw [hkf k hk] at h3
  exact absurd h3 (by simp)

theorem keyfree_not_key (env : List (Value × Value)) {t : Value}
    (hkf : KeyFree env t) : lookupBinding env t = none := by
  rw [lookupBinding_none_iff]
  intro hmem
  have := hkf t hmem
  rw [occursIn_self] at this
  exact absurd this (by simp)

theorem plugList_congr_id (env : List (Value × Value)) (seen : List Value)
    (es : List Value) (h : ∀ e ∈ es, plugVal env seen e = e) :
    plugList env seen es = es := by
  induction es with
  | nil => simp [plugList]
  | cons e es ih =>
    rw [plugList, h e (by simp), ih (fun x hx => h x (by simp [hx]))]

theorem plugPairs_congr_id (env : List (Value × Value)) (seen : List Value)
    (ps : List (Value × Value))
    (h : ∀ p ∈ ps, plugVal env seen (Prod.fst p) = Prod.fst p ∧
      plugVal env seen (Prod.snd p) = Prod.snd p) :
    plugPairs env seen ps = ps := by
  induction ps with
  | nil => simp [plugPairs]
  | cons p ps ih =>
    obtain ⟨k, x⟩ := p
    rw [plugPairs, (h (k, x) (by simp)).1, (h (k, x) (by simp)).2,
      ih (fun q hq => h q (by simp [hq]))]

section PlugUnfold

variable (env : List (Value × Value)) (seen : List Value)

theorem plugVal_seen (v : Value) (hs : v ∈ seen) : plugVal env seen v = v := by
  rw [plugVal.eq_def, dif_pos hs]

theorem plugVal_stop (v w : Value) (hs : v ∉ seen)
    (hlk : lookupBinding env v = some w) (hw : w = v ∨ w ∈ seen) :
    plugVal env seen v = v := by
  rw [plugVal.eq_def, dif_neg hs]
  split
  · next w2 hw2 =>
      rw [hlk] at hw2
      cases hw2
      rw [if_pos hw]
  · next hw2 => rw [hlk] at hw2; cases hw2

theorem plugVal_chase (v w : Value) (hs : v ∉ seen)
    (hlk : lookupBinding env v = some w) (hw : ¬ (w = v ∨ w ∈ seen)) :
    plugVal env seen v = plugVal env (v :: seen) w := by
  rw [plugVal.eq_def, dif_neg hs]
  split
  · next w2 hw2 =>
      rw [hlk] at hw2
      cases hw2
      rw [if_neg hw]
  · next hw2 => rw [hlk] at hw2; cases hw2

theorem plugVal_null (hs : Value.null ∉ seen)
    (hlk : lookupBinding env Value.null = none) :
    plugVal env seen Value.null = Value.null := by
  rw [plugVal.eq_def, dif_neg hs]
  split
  · next w hw => rw [hlk] at hw; cases hw
  · rfl

theorem plugVal_bool (b : Bool) (hs : Value.bool b ∉ seen)
    (hlk : lookupBinding env (Value.bool b) = none) :
    plugVal env seen (Value.bool b) = Value.bool b := by
  rw [plugVal.eq_def, dif_neg hs]
  split
  · next w hw => rw [hlk] at hw; cases hw
  · rfl

theorem plugVal_num (n : Int) (hs : Value.num n ∉ seen)
    (hlk : lookupBinding env (Value.num n) = none) :
    plugVal env seen (Value.num n) = Value.num n := by
  rw [plugVal.eq_def, dif_neg hs]
  split
  · next w hw => rw [hlk] at hw; cases hw
  · rfl

theorem plugVal_str (t : String) (hs : Value.str t ∉ seen)
    (hlk : lookupBinding env (Value.str t) = none) :
    plugVal env seen (Value.str t) = Value.str t := by
  rw [plugVal.eq_def, dif_neg hs]
  split
  · next w hw => rw [hlk] at hw; cases hw
  · rfl

theorem plugVal_var (x : String) (hs : Value.var x ∉ seen)
    (hlk : lookupBinding env (Value.var x) = none) :
    plugVal env seen (Value.var x) = Value.var x := by
  rw [plugVal.eq_def, dif_neg hs]
  split
  · next w hw => rw [hlk] at hw; cases hw
  · rfl

theorem plugVal_acomp (h : Value) (hs2 : List Value)
    (hs : Value.acomp h hs2 ∉ seen)
    (hlk : lookupBinding env (Value.acomp h hs2) = none) :
    plugVal env seen (Value.acomp h hs2) = Value.acomp h hs2 := by
  rw [plugVal.eq_def, dif_neg hs]
  split
  · next w hw => rw [hlk] at hw; cases hw
  · rfl

theorem plugVal_ref (es : List Value) (hs : Value.ref es ∉ seen)
    (hlk : lookupBinding env (Value.ref es) = none) :
    plugVal env seen (Value.ref es) =
      Value.ref (plugList env (Value.ref es :: seen) es) := by
  rw [plugVal.eq_def, dif_neg hs]
  split
  · next w hw => rw [hlk] at hw; cases hw
  · rfl

theorem plugVal_arr (es : List Value) (hs : Value.arr es ∉ seen)
    (hlk : lookupBinding env (Value.arr es) = none) :
    plugVal env seen (Value.arr es) =
      Value.arr (plugList env (Value.arr es :: seen) es) := by
  rw [plugVal.eq_def, dif_neg hs]
  split
  · next w hw => rw [hlk] at hw; cases hw
  · rfl

theorem plugVal_obj (ps : List (Value × Value)) (hs : Value.obj ps ∉ seen)
    (hlk : lookupBinding env (Value.obj ps) = none) :
    plugVal env seen (Value.obj ps) =
      Value.obj (plugPairs env (Value.obj ps :: seen) ps) := by
  rw [plugVal.eq_def, dif_neg hs]
  split
  · next w hw => rw [hlk] at hw; cases hw
  · rfl

theorem plugVal_set (es : List Value) (hs : Value.set es ∉ seen)
    (hlk : lookupBinding env (Value.set es) = none) :
    plugVal env seen (Value.set es) =
      Value.set (plugList env (Value.set es :: seen) es) := by
  rw [plugVal.eq_def, dif_neg hs]
  split
  · next w hw => rw [hlk] at hw; cases hw
  · rfl

end PlugUnfold

/-- On a term free of the environment's keys, `Plug` is the identity,
whatever the stack. -/
theorem plug_keyfree (env : List (Value × Value)) (hvk : VarKeys env) :
    ∀ t, KeyFree env t → ∀ seen, plugVal env seen t = t := by
  intro t
  induction t using Value.myInduction with
  | hnull =>
    intro hkf seen
    by_cases hs : Value.null ∈ seen
    · exact plugVal_seen env seen _ hs
    · exact plugVal_null env seen hs (keyfree_not_key env hkf)
  | hbool b =>
    intro hkf seen
    by_cases hs : Value.bool b ∈ seen
    · exact plugVal_seen env seen _ hs
    · exact plugVal_bool env seen b hs (keyfree_not_key env hkf)
  | hnum n =>
    intro hkf seen
    by_cases hs : Value.num n ∈ seen
    · exact plugVal_seen env seen _ hs
    · exact plugVal_num env seen n hs (keyfree_not_key env hkf)
  | hstr x =>
    intro hkf seen
    by_cases hs : Value.str x ∈ seen
    · exact plugVal_seen env seen _ hs
    · exact plugVal_str env seen x hs (keyfree_not_key env hkf)
  | hvar x =>
    intro hkf seen
    by_cases hs : Value.var x ∈ seen
    · exact plugVal_seen env seen _ hs
    · exact plugVal_var env seen x hs (keyfree_not_key env hkf)
  | hacomp h hs2 ihh ihl =>
    intro hkf seen
    by_cases hs : Value.acomp h hs2 ∈ seen
    · exact plugVal_seen env seen _ hs
    · exact plugVal_acomp env seen h hs2 hs (keyfree_not_key env hkf)
  | href as ih =>
    intro hkf seen
    by_cases hs : Value.ref as ∈ seen
    · exact plugVal_seen env seen _ hs
    · rw [plugVal_ref env seen as hs (keyfree_not_key env hkf)]
      congr 1
      apply plugList_congr_id
      intro e he
      refine ih e he (keyfree_child env hkf ?_) _
      simp only [occursIn, Bool.or_eq_true, occursList_exists]
      exact Or.inr ⟨e, he, occursIn_self e⟩
  | harr as ih =>
    intro hkf seen
    by_cases hs : Value.arr as ∈ seen
    · exact plugVal_seen env seen _ hs
    · rw [plugVal_arr env seen as hs (keyfree_not_key env hkf)]
      congr 1
      apply plugList_congr_id
      intro e he
      refine ih e he (keyfree_child env hkf ?_) _
      simp only [occursIn, Bool.or_eq_true, occursList_exists]
      exact Or.inr ⟨e, he, occursIn_self e⟩
  | hset as ih =>
    intro hkf seen
    by_cases hs : Value.set as ∈ seen
    · exact plugVal_seen env seen _ hs
    · rw [plugVal_set env seen as hs (keyfree_not_key env hkf)]
      congr 1
      apply plugList_congr_id
      intro e he
      refine ih e he (keyfree_child env hkf ?_) _
      simp only [occursIn, Bool.or_eq_true, occursList_exists]
      exact Or.inr ⟨e, he, occursIn_self e⟩
  | hobj ps ih =>
    intro hkf seen
    by_cases hs : Value.obj ps ∈ seen
    · exact plugVal_seen env seen _ hs
    · rw [plugVal_obj env seen ps hs (keyfree_not_key env hkf)]
      congr 1
      apply plugPairs_congr_id
      intro p hp
      constructor
      · refine (ih p hp).1 (keyfree_child env hkf ?_) _
        simp only [occursIn, Bool.or_eq_true, occursPairs_exists]
        exact Or.inr ⟨p, hp, Or.inl (occursIn_self _)⟩
      · refine (ih p hp).2 (keyfree_child env hkf ?_) _
        simp only [occursIn, Bool.or_eq_true, occursPairs_exists]
        exact Or.inr ⟨p, hp, Or.inr (occursIn_self _)⟩

theorem lookupBinding_some_pair (env : List (Value × Value)) (v w : Value)
    (h : lookupBinding env v = some w) : (v, w) ∈ env := by
  induction env with
  | nil => simp [lookupBinding] at h
  | cons p rest ih =>
    obtain ⟨k, u⟩ := p
    by_cases hk : k = v
    · subst hk
      rw [lookupBinding, if_pos rfl] at h
      cases h
      simp
    · rw [lookupBinding, if_neg hk] at h
      simp [ih h]

/-- Occurrence implies the occurring term is no larger. -/
theorem occurs_size : ∀ b a : Value, occursIn a b = true → sizeOf a ≤ sizeOf b := by
  intro b
  induction b using Value.myInduction with
  | hnull =>
    intro a h
    simp [occursIn] at h
    subst h
    exact le_rfl
  | hbool x =>
    intro a h
    simp [occursIn] at h
    subst h
    exact le_rfl
  | hnum x =>
    intro a h
    simp [occursIn] at h
    subst h
    exact le_rfl
  | hstr x =>
    intro a h
    simp [occursIn] at h
    subst h
    exact le_rfl
  | hvar x =>
    intro a h
    simp [occursIn] at h
    subst h
    exact le_rfl
  | hacomp hd hs ihh ihl =>
    intro a h
    simp [occursIn] at h
    subst h
    exact le_rfl
  | href as ih =>
    intro a h
    simp only [occursIn, Bool.or_eq_true, decide_eq_true_eq, occursList_exists] at h
    rcases h with h | ⟨e, he, hocc⟩
    · subst h; exact le_rfl
    · have h1 := ih e he a hocc
      have h2 := List.sizeOf_lt_of_mem he
      simp only [Value.ref.sizeOf_spec]
      omega
  | harr as ih =>
    intro a h
    simp only [occursIn, Bool.or_eq_true, decide_eq_true_eq, occursList_exists] at h
    rcases h with h | ⟨e, he, hocc⟩
    · subst h; exact le_rfl
    · have h1 := ih e he a hocc
      have h2 := List.sizeOf_lt_of_mem he
      simp only [Value.arr.sizeOf_spec]
      omega
  | hset as ih =>
    intro a h
    simp only [occursIn, Bool.or_eq_true, decide_eq_true_eq, occursList_exists] at h
    rcases h with h | ⟨e, he, hocc⟩
    · subst h; exact le_rfl
    · have h1 := ih e he a hocc
      have h2 := List.sizeOf_lt_of_mem he
      simp only [Value.set.sizeOf_spec]
      omega
  | hobj ps ih =>
    intro a h
    simp only [occursIn, Bool.or_eq_true, decide_eq_true_eq, occursPairs_exists] at h
    rcases h with h | ⟨q, hq, hocc⟩
    · subst h; exact le_rfl
    · have h2 := List.sizeOf_lt_of_mem hq
      have h3 : sizeOf (Prod.fst q) < sizeOf q ∧ sizeOf (Prod.snd q) < sizeOf q := by
        obtain ⟨q1, q2⟩ := q
        simp
        omega
      simp only [Value.obj.sizeOf_spec]
      rcases hocc with hocc | hocc
      · have h1 := (ih q hq).1 a hocc
        omega
      · have h1 := (ih q hq).2 a hocc
        omega

theorem occurs_child_ref {e : Value} {es : List Value} (he : e ∈ es) :
    occursIn e (.ref es) = true := by
  simp only [occursIn, Bool.or_eq_true, occursList_exists]
  exact Or.inr ⟨e, he, occursIn_self e⟩

theorem occurs_child_arr {e : Value} {es : List Value} (he : e ∈ es) :
    occursIn e (.arr es) = true := by
  simp only [occursIn, Bool.or_eq_true, occursList_exists]
  exact Or.inr ⟨e, he, occursIn_self e⟩

theorem occurs_child_set {e : Value} {es : List Value} (he : e ∈ es) :
    occursIn e (.set es) = true := by
  simp only [occursIn, Bool.or_eq_true, occursList_exists]
  exact Or.inr ⟨e, he, occursIn_self e⟩

theorem occurs_child_objk {p : Value × Value} {ps : List (Value × Value)}
    (hp : p ∈ ps) : occursIn (Prod.fst p) (.obj ps) = true := by
  simp only [occursIn, Bool.or_eq_true, occursPairs_exists]
  exact Or.inr ⟨p, hp, Or.inl (occursIn_self _)⟩

theorem occurs_child_objv {p : Value × Value} {ps : List (Value × Value)}
    (hp : p ∈ ps) : occursIn (Prod.snd p) (.obj ps) = true := by
  simp only [occursIn, Bool.or_eq_true, occursPairs_exists]
  exact Or.inr ⟨p, hp, Or.inr (occursIn_self _)⟩

mutual

/-- One-pass substitution: a variable is replaced by its bound value,
other terms are rebuilt from substituted children.  On resolved
environments this coincides with `Plug`. -/
def substVal (env : List (Value × Value)) : Value → Value
  | .var x =>
    match lookupBinding env (.var x) with
    | some w => w
    | none => .var x
  | .ref es => .ref (substList env es)
  | .arr es => .arr (substList env es)
  | .obj ps => .obj (substPairs env ps)
  | .set es => .set (substList env es)
  | t => t
termination_by t => sizeOf t
decreasing_by all_goals (simp_wf <;> omega)

/-- Substitute every element of a term list. -/
def substList (env : List (Value × Value)) : List Value → List Value
  | [] => []
  | e :: es => substVal env e :: substList env es
termination_by es => sizeOf es
decreasing_by all_goals (simp_wf <;> omega)

/-- Substitute every key and value of a pair list. -/
def substPairs (env : List (Value × Value)) : List (Value × Value) →
    List (Value × Value)
  | [] => []
  | p :: ps => (substVal env p.1, substVal env p.2) :: substPairs env ps
termination_by ps => sizeOf ps
decreasing_by all_goals ((obtain ⟨p1, p2⟩ := p) <;> simp_wf <;> omega)

end

theorem plugList_eq_map (env : List (Value × Value)) (seen : List Value)
    (es : List Value) : plugList env seen es = es.map (plugVal env seen) := by
  induction es with
  | nil => simp [plugList]
  | cons e es ih => simp [plugList, ih]

theorem plugPairs_eq_map (env : List (Value × Value)) (seen : List Value)
    (ps : List (Value × Value)) : plugPairs env seen ps =
      ps.map (fun p => (plugVal env seen (Prod.fst p), plugVal env seen (Prod.snd p))) := by
  induction ps with
  | nil => simp [plugPairs]
  | cons p ps ih =>
    obtain ⟨k, x⟩ := p
    simp [plugPairs, ih]

theorem substList_eq_map (env : List (Value × Value)) (es : List Value) :
    substList env es = es.map (substVal env) := by
  induction es with
  | nil => simp [substList]
  | cons e es ih => simp [substList, ih]

theorem substPairs_eq_map (env : List (Value × Value))
    (ps : List (Value × Value)) : substPairs env ps =
      ps.map (fun p => (substVal env (Prod.fst p), substVal env (Prod.snd p))) := by
  induction ps with
  | nil => simp [substPairs]
  | cons p ps ih => simp [substPairs, ih]

theorem occursList_forall (x : Value) (es : List Value) :
    occursList x es = false ↔ ∀ e ∈ es, occursIn x e = false := by
  constructor
  · intro h e he
    cases hx : occursIn x e
    · rfl
    · rw [(occursList_exists x es).mpr ⟨e, he, hx⟩] at h
      cases h
  · intro h
    cases hx : occursList x es
    · rfl
    · obtain ⟨e, he, hocc⟩ := (occursList_exists x es).mp hx
      rw [h e he] at hocc
      cases hocc

theorem occursPairs_forall (x : Value) (ps : List (Value × Value)) :
    occursPairs x ps = false ↔ ∀ p ∈ ps,
      occursIn x (Prod.fst p) = false ∧ occursIn x (Prod.snd p) = false := by
  constructor
  · intro h p hp
    constructor
    · cases hx : occursIn x (Prod.fst p)
      · rfl
      · rw [(occursPairs_exists x ps).mpr ⟨p, hp, Or.inl hx⟩] at h
        cases h
    · cases hx : occursIn x (Prod.snd p)
      · rfl
      · rw [(occursPairs_exists x ps).mpr ⟨p, hp, Or.inr hx⟩] at h
        cases h
  · intro h
    cases hx : occursPairs x ps
    · rfl
    · obtain ⟨p, hp, hocc⟩ := (occursPairs_exists x ps).mp hx
      rcases hocc with hocc | hocc
      · rw [(h p hp).1] at hocc
        cases hocc
      · rw [(h p hp).2] at hocc
        cases hocc

/-- Stack invariant relating `Plug` to one-pass substitution: no stack
element occurs in the current term, and every stack element is either a
bound key or contains the current term. -/
def InvSeen (env : List (Value × Value)) (t : Value) (seen : List Value) :
    Prop :=
  ∀ s ∈ seen, occursIn s t = false ∧ (s ∈ envKeys env ∨ occursIn t s = true)

theorem invSeen_notMem (env : List (Value × Value)) (t : Value)
    (seen : List Value) (hinv : InvSeen env t seen) : t ∉ seen := by
  intro h
  have h1 := (hinv t h).1
  rw [occursIn_self] at h1
  cases h1

theorem invSeen_child (env : List (Value × Value)) {t c : Value}
    (seen : List Value) (hinv : InvSeen env t seen)
    (hc : occursIn c t = true) (hlt : sizeOf c < sizeOf t) :
    InvSeen env c (t :: seen) := by
  intro s hs
  rcases List.mem_cons.mp hs with rfl | hs2
  · constructor
    · cases hx : occursIn s c
      · rfl
      · have := occurs_size c s hx
        omega
    · exact Or.inr hc
  · obtain ⟨h1, h2⟩ := hinv s hs2
    constructor
    · cases hx : occursIn s c
      · rfl
      · have := occurs_trans t s c hx hc
        rw [h1] at this
        cases this
    · rcases h2 with h2 | h2
      · exact Or.inl h2
      · exact Or.inr (occurs_trans s c t hc h2)

/-- On a resolved environment, `Plug` with a well-formed stack computes
exactly the one-pass substitution: chains have length at most one and
the substituted values are key-free. -/
theorem plug_resolved (env : List (Value × Value)) (hres : Resolved env) :
    ∀ t seen, InvSeen env t seen → plugVal env seen t = substVal env t := by
  intro t
  induction t using Value.myInduction with
  | hnull =>
    intro seen hinv
    have hns := invSeen_notMem env _ seen hinv
    have hnk : lookupBinding env Value.null = none := by
      rw [lookupBinding_none_iff]
      intro hmem
      obtain ⟨x, hx⟩ := hres.1 _ hmem
      exact absurd hx (by simp)
    rw [plugVal_null env seen hns hnk]
    simp [substVal]
  | hbool b =>
    intro seen hinv
    have hns := invSeen_notMem env _ seen hinv
    have hnk : lookupBinding env (Value.bool b) = none := by
      rw [lookupBinding_none_iff]
      intro hmem
      obtain ⟨x, hx⟩ := hres.1 _ hmem
      exact absurd hx (by simp)
    rw [plugVal_bool env seen b hns hnk]
    simp [substVal]
  | hnum n =>
    intro seen hinv
    have hns := invSeen_notMem env _ seen hinv
    have hnk : lookupBinding env (Value.num n) = none := by
      rw [lookupBinding_none_iff]
      intro hmem
      obtain ⟨x, hx⟩ := hres.1 _ hmem
      exact absurd hx (by simp)
    rw [plugVal_num env seen n hns hnk]
    simp [substVal]
  | hstr t =>
    intro seen hinv
    have hns := invSeen_notMem env _ seen hinv
    have hnk : lookupBinding env (Value.str t) = none := by
      rw [lookupBinding_none_iff]
      intro hmem
      obtain ⟨x, hx⟩ := hres.1 _ hmem
      exact absurd hx (by simp)
    rw [plugVal_str env seen t hns hnk]
    simp [substVal]
  | hacomp hd hs2 ihh ihl =>
    intro seen hinv
    have hns := invSeen_notMem env _ seen hinv
    have hnk : lookupBinding env (Value.acomp hd hs2) = none := by
      rw [lookupBinding_none_iff]
      intro hmem
      obtain ⟨x, hx⟩ := hres.1 _ hmem
      exact absurd hx (by simp)
    rw [plugVal_acomp env seen hd hs2 hns hnk]
    simp [substVal]
  | hvar x =>
    intro seen hinv
    have hns := invSeen_notMem env _ seen hinv
    cases hlk : lookupBinding env (Value.var x) with
    | none =>
      rw [plugVal_var env seen x hns hlk]
      simp [substVal, hlk]
    | some w =>
      have hpair := lookupBinding_some_pair env _ w hlk
      have hmem : Value.var x ∈ envKeys env := lookupBinding_some_mem env _ w hlk
      have hkfw : KeyFree env w := fun k hk => hres.2 (Value.var x, w) hpair k hk
      have hnotc : ¬ (w = Value.var x ∨ w ∈ seen) := by
        rintro (rfl | hw)
        · have h1 := hkfw _ hmem
          rw [occursIn_self] at h1
          cases h1
        · obtain ⟨h1, h2⟩ := hinv w hw
          rcases h2 with h2 | h2
          · have h3 := hkfw w h2
            rw [occursIn_self] at h3
            cases h3
          · have h3 := hkfw _ hmem
            rw [h3] at h2
            cases h2
      rw [plugVal_chase env seen _ w hns hlk hnotc,
        plug_keyfree env hres.1 w hkfw _]
      simp [substVal, hlk]
  | href as ih =>
    intro seen hinv
    have hns := invSeen_notMem env _ seen hinv
    have hnk : lookupBinding env (Value.ref as) = none := by
      rw [lookupBinding_none_iff]
      intro hmem
      obtain ⟨x, hx⟩ := hres.1 _ hmem
      exact absurd hx (by simp)
    rw [plugVal_ref env seen as hns hnk, plugList_eq_map]
    simp only [substVal, substList_eq_map]
    congr 1
    apply List.map_congr_left
    intro e he
    refine ih e he _ (invSeen_child env seen hinv (occurs_child_ref he) ?_)
    have := List.sizeOf_lt_of_mem he
    simp only [Value.ref.sizeOf_spec]
    omega
  | harr as ih =>
    intro seen hinv
    have hns := invSeen_notMem env _ seen hinv
    have hnk : lookupBinding env (Value.arr as) = none := by
      rw [lookupBinding_none_iff]
      intro hmem
      obtain ⟨x, hx⟩ := hres.1 _ hmem
      exact absurd hx (by simp)
    rw [plugVal_arr env seen as hns hnk, plugList_eq_map]
    simp only [substVal, substList_eq_map]
    congr 1
    apply List.map_congr_left
    intro e he
    refine ih e he _ (invSeen_child env seen hinv (occurs_child_arr he) ?_)
    have := List.sizeOf_lt_of_mem he
    simp only [Value.arr.sizeOf_spec]
    omega
  | hset as ih =>
    intro seen hinv
    have hns := invSeen_notMem env _ seen hinv
    have hnk : lookupBinding env (Value.set as) = none := by
      rw [lookupBinding_none_iff]
      intro hmem
      obtain ⟨x, hx⟩ := hres.1 _ hmem
      exact absurd hx (by simp)
    rw [plugVal_set env seen as hns hnk, plugList_eq_map]
    simp only [substVal, substList_eq_map]
    congr 1
    apply List.map_congr_left
    intro e he
    refine ih e he _ (invSeen_child env seen hinv (occurs_child_set he) ?_)
    have := List.sizeOf_lt_of_mem he
    simp only [Value.set.sizeOf_spec]
    omega
  | hobj ps ih =>
    intro seen hinv
    have hns := invSeen_notMem env _ seen hinv
    have hnk : lookupBinding env (Value.obj ps) = none := by
      rw [lookupBinding_none_iff]
      intro hmem
      obtain ⟨x, hx⟩ := hres.1 _ hmem
      exact absurd hx (by simp)
    rw [plugVal_obj env seen ps hns hnk, plugPairs_eq_map]
    simp only [substVal, substPairs_eq_map]
    congr 1
    apply List.map_congr_left
    intro p hp
    have hsz : sizeOf (Prod.fst p) < sizeOf (Value.obj ps) ∧
        sizeOf (Prod.snd p) < sizeOf (Value.obj ps) := by
      have h2 := List.sizeOf_lt_of_mem hp
      obtain ⟨p1, p2⟩ := p
      simp only [Value.obj.sizeOf_spec]
      simp at h2 ⊢
      omega
    rw [(ih p hp).1 _ (invSeen_child env seen hinv (occurs_child_objk hp) hsz.1),
      (ih p hp).2 _ (invSeen_child env seen hinv (occurs_child_objv hp) hsz.2)]

/-- The one-pass substitution of a resolved environment produces
key-free terms. -/
theorem substVal_keyfree (env : List (Value × Value)) (hres : Resolved env) :
    ∀ t, KeyFree env (substVal env t) := by
  intro t
  induction t using Value.myInduction with
  | hnull =>
    intro k hk
    obtain ⟨x, rfl⟩ := hres.1 _ hk
    simp [substVal, occursIn]
  | hbool b =>
    intro k hk
    obtain ⟨x, rfl⟩ := hres.1 _ hk
    simp [substVal, occursIn]
  | hnum n =>
    intro k hk
    obtain ⟨x, rfl⟩ := hres.1 _ hk
    simp [substVal, occursIn]
  | hstr t =>
    intro k hk
    obtain ⟨x, rfl⟩ := hres.1 _ hk
    simp [substVal, occursIn]
  | hacomp hd hs2 ihh ihl =>
    intro k hk
    obtain ⟨x, rfl⟩ := hres.1 _ hk
    simp [substVal, occursIn]
  | hvar y =>
    intro k hk
    cases hlk : lookupBinding env (Value.var y) with
    | some w =>
      simp only [substVal, hlk]
      exact hres.2 (Value.var y, w) (lookupBinding_some_pair env _ w hlk) k hk
    | none =>
      simp only [substVal, hlk]
      obtain ⟨x, rfl⟩ := hres.1 _ hk
      simp only [occursIn, decide_eq_false_iff_not]
      intro heq
      cases heq
      exact (lookupBinding_none_iff env _).mp hlk hk
  | href as ih =>
    intro k hk
    have hkvar := hres.1 _ hk
    obtain ⟨x, rfl⟩ := hkvar
    simp only [substVal, occursIn, Bool.or_eq_false_iff]
    refine ⟨by simp, ?_⟩
    rw [occursList_forall]
    intro e he
    rw [substList_eq_map] at he
    obtain ⟨e0, he0, rfl⟩ := List.mem_map.mp he
    exact ih e0 he0 _ hk
  | harr as ih =>
    intro k hk
    have hkvar := hres.1 _ hk
    obtain ⟨x, rfl⟩ := hkvar
    simp only [substVal, occursIn, Bool.or_eq_false_iff]
    refine ⟨by simp, ?_⟩
    rw [occursList_forall]
    intro e he
    rw [substList_eq_map] at he
    obtain ⟨e0, he0, rfl⟩ := List.mem_map.mp he
    exact ih e0 he0 _ hk
  | hset as ih =>
    intro k hk
    have hkvar := hres.1 _ hk
    obtain ⟨x, rfl⟩ := hkvar
    simp only [substVal, occursIn, Bool.or_eq_false_iff]
    refine ⟨by simp, ?_⟩
    rw [occursList_forall]
    intro e he
    rw [substList_eq_map] at he
    obtain ⟨e0, he0, rfl⟩ := List.mem_map.mp he
    exact ih e0 he0 _ hk
  | hobj ps ih =>
    intro k hk
    have hkvar := hres.1 _ hk
    obtain ⟨x, rfl⟩ := hkvar
    simp only [substVal, occursIn, Bool.or_eq_false_iff]
    refine ⟨by simp, ?_⟩
    rw [occursPairs_forall]
    intro p hp
    rw [substPairs_eq_map] at hp
    obtain ⟨p0, hp0, rfl⟩ := List.mem_map.mp hp
    exact ⟨(ih p0 hp0).1 _ hk, (ih p0 hp0).2 _ hk⟩

/-- On a resolved environment, `Plug` is exactly the one-pass
substitution. -/
theorem PlugValue_resolved (env : List (Value × Value)) (hres : Resolved env)
    (t : Value) : PlugValue env t = substVal env t :=
  plug_resolved env hres t [] (by intro s hs; exact absurd hs (List.not_mem_nil s))

/-- On a resolved environment, `Plug` is idempotent. -/
theorem PlugValue_idem (env : List (Value × Value)) (hres : Resolved env)
    (t : Value) : PlugValue env (PlugValue env t) = PlugValue env t := by
  rw [PlugValue_resolved env hres t]
  exact plug_keyfree env hres.1 _ (substVal_keyfree env hres t) []

/-- Runtime error kinds as observed through the tests: conflicts carry
stable code 1; type errors carry code 2 (the engine also raises illegal
object keys and set-dereference errors as code 2, see
`TestTopDownCaching` and `TestTopDownVirtualDocs`); an unknown built-in
carries code 3. -/
inductive EvalError where
  | conflict : String → EvalError
  | typeError : String → EvalError
  | unsupportedBuiltin : String → EvalError
  deriving DecidableEq, Repr

/-- Stable error code (wire shape `{Code, Message}`, spec §6/§7). -/
def errCode : EvalError → Nat
  | .conflict _ => 1
  | .typeError _ => 2
  | .unsupportedBuiltin _ => 3

/-- Message of an error. -/
def errMsg : EvalError → String
  | .conflict m => m
  | .typeError m => m
  | .unsupportedBuiltin m => m

/-- Modelled from the spec: assembly of a complete document (spec §4.5
point 3).  The first produced value is recorded and every further value
is cross-checked by structural equality; a disagreement raises a
Conflict. -/
def completeDocAux : Option Value → List Value → Except EvalError (Option Value)
  | acc, [] => .ok acc
  | none, v :: vs => completeDocAux (some v) vs
  | some w, v :: vs =>
    if Value.equal w v then completeDocAux (some w) vs
    else .error (.conflict "multiple values for complete documents")

/-- Modelled from the spec: the value of a complete document given the
values produced by its rules. -/
def completeDocValue (vs : List Value) : Except EvalError (Option Value) :=
  completeDocAux none vs

/-- Is the value a string? -/
def isStringV : Value → Bool
  | .str _ => true
  | _ => false

/-- Look up a key (by logical equality) in an accumulated object. -/
def objFind : List (Value × Value) → Value → Option Value
  | [], _ => none
  | (k, w) :: rest, q => if Value.equal k q then some w else objFind rest q

/-- Modelled from the spec and the test expectations: assembly of a
partial-object document (spec §4.5 point 3).  A non-string key is an
error the engine raises as a type error (code 2); a key bound to two
structurally distinct values is a Conflict (code 1); an identical
key/value pair collapses into a single entry. -/
def partialObjectAux : List (Value × Value) → List (Value × Value) →
    Except EvalError (List (Value × Value))
  | acc, [] => .ok acc
  | acc, (k, v) :: ps =>
    if isStringV k then
      match objFind acc k with
      | none => partialObjectAux (acc ++ [(k, v)]) ps
      | some w =>
        if Value.equal w v then partialObjectAux acc ps
        else .error (.conflict "multiple values for object document keys")
    else .error (.typeError "produced illegal object key")

/-- Modelled from the spec: the key/value entries of a partial-object
document given the pairs emitted by its rules. -/
def partialObjectDoc (ps : List (Value × Value)) :
    Except EvalError (List (Value × Value)) :=
  partialObjectAux [] ps

/-- Modelled from the spec (§4.4) and the test expectations: evaluation
of a reference that looks a key up in a partial-set document and then
tries to dereference the result further.  A successful lookup followed
by a non-empty remaining path is a runtime error naming the offending
reference (sets have no order); the engine raises it with code 2. -/
def evalSetRef (refStr : String) (elems : List Value) (key : Value)
    (suffix : List Value) : Except EvalError (List Value) :=
  if elems.any (fun e => Value.equal e key) then
    if suffix.isEmpty then .ok [Value.bool true]
    else .error (.typeError
      (refStr ++ " attempts to dereference lookup result"))
  else .ok []

/-- Modelled from the spec (§4.4): walk a ground path into a JSON-shaped
document.  String keys index objects, integer indices index arrays; any
missing key, out-of-range index or shape mismatch is undefined (`none`),
never an error. -/
def walkDoc (doc : Value) : List Value → Option Value
  | [] => some doc
  | k :: path =>
    match doc, k with
    | .obj ps, k =>
      match objFind ps k with
      | some w => walkDoc w path
      | none => none
    | .arr es, .num i =>
      if i < 0 then none
      else
        match es.get? i.toNat with
        | some e => walkDoc e path
        | none => none
    | _, _ => none
termination_by path => path.length
decreasing_by all_goals simp_wf <;> omega

mutual

/-- Modelled from the spec (§4.7): resolve a (plugged) term to the value
it denotes for a term-expression.  A `data` reference walks the document
tree and may be undefined; a comprehension evaluates to the (possibly
empty) array of collected results; every other term denotes itself. -/
def resolveTerm (doc : Value) : Value → Option Value
  | .ref (Value.var "data" :: path) => walkDoc doc path
  | .ref _ => none
  | .acomp hd body =>
    some (.arr (if body.attach.all (fun g => termTruthy doc g.1) then [hd] else []))
  | v => some v
termination_by t => sizeOf t + 1
decreasing_by
  all_goals (have hg := List.sizeOf_lt_of_mem g.2; simp_wf <;> simp at hg <;> omega)

/-- Modelled from the spec (§4.7) and `TestTopDownEvalTermExpr`: a
term-expression succeeds iff the term resolves to a defined value other
than `false`. -/
def termTruthy (doc : Value) (t : Value) : Bool :=
  match resolveTerm doc t with
  | none => false
  | some w => decide (w ≠ Value.bool false)
termination_by sizeOf t + 2
decreasing_by simp_wf

end

/-- Expressions of a compiled body as dispatched by the driver
(spec §4.7): equalities, single-term expressions, negations and built-in
calls. -/
inductive Expr where
  | eq : Value → Value → Expr
  | term : Value → Expr
  | notE : Expr → Expr
  | call : String → List Value → Expr
  deriving DecidableEq, Repr

/-- The registered built-in names of the model. -/
def builtinRegistry : List String := ["lt"]

/-- Modelled from the spec (§4.6): a built-in returns `none` (undefined)
when its arguments do not match its contract shape. -/
def evalBuiltin : String → List Value → Option Bool
  | "lt", [Value.num a, Value.num b] => some (decide (a < b))
  | _, _ => none

/-- Modelled from the spec (§4.7, §7): evaluate one expression under a
binding environment, producing the list of solution environments.  A
mere failure — unification mismatch, undefined reference, built-in
returning undefined — yields the empty list and never an error; errors
short-circuit through `Except`. -/
def evalExpr (doc : Value) (ctx : List (Value × Value)) :
    Expr → Except EvalError (List (List (Value × Value)))
  | .eq a b =>
    match PlugValue ctx a, PlugValue ctx b with
    | .var x, w => .ok [(Value.var x, w) :: ctx]
    | w, .var x => .ok [(Value.var x, w) :: ctx]
    | pa, pb => if Value.equal pa pb then .ok [ctx] else .ok []
  | .term t =>
    if termTruthy doc (PlugValue ctx t) then .ok [ctx] else .ok []
  | .notE e =>
    match evalExpr doc ctx e with
    | .error err => .error err
    | .ok sols => if sols.isEmpty then .ok [ctx] else .ok []
  | .call name args =>
    if name ∈ builtinRegistry then
      match evalBuiltin name (args.map (PlugValue ctx)) with
      | some true => .ok [ctx]
      | some false => .ok []
      | none => .ok []
    else .error (.unsupportedBuiltin name)

mutual

/-- Modelled from the spec (§4.7): evaluate the expressions of a body
left-to-right, threading each solution environment into the rest of the
body and collecting every solution of the final expression. -/
def evalBody (doc : Value) : List Expr → List (Value × Value) →
    Except EvalError (List (List (Value × Value)))
  | [], ctx => .ok [ctx]
  | e :: es, ctx =>
    match evalExpr doc ctx e with
    | .error err => .error err
    | .ok sols => evalBodyAll doc es sols
termination_by es ctx => (es.length, 0)

/-- Evaluate the rest of the body under each solution environment and
concatenate the results. -/
def evalBodyAll (doc : Value) (es : List Expr) :
    List (List (Value × Value)) →
      Except EvalError (List (List (Value × Value)))
  | [] => .ok []
  | ctx :: ctxs =>
    match evalBody doc es ctx with
    | .error err => .error err
    | .ok rs1 =>
      match evalBodyAll doc es ctxs with
      | .error err => .error err
      | .ok rs2 => .ok (rs1 ++ rs2)
termination_by ctxs => (es.length, ctxs.length + 1)

end

/-- Modelled from the spec (§6): `Query` evaluates a query body against
the document tree, starting from the empty binding environment.  It
returns the set of solutions, or the error that aborted evaluation. -/
def Query (doc : Value) (body : List Expr) :
    Except EvalError (List (List (Value × Value))) :=
  evalBody doc body []

/-- Modelled from the spec (§6): an empty result set signals an
undefined result. -/
def Undefined (rs : List (List (Value × Value))) : Bool := rs.isEmpty

mutual

/-- The var visitor used by `unifier.varVisitor` in `ast/unify.go`:
collect the variables of a term with `SkipRefHead`, `SkipObjectKeys`,
`SkipClosures` and `SkipBuiltinOperators` set — reference heads, object
keys and the bodies of comprehensions contribute nothing. -/
def termVars : Value → Finset String
  | .var x => {x}
  | .ref [] => ∅
  | .ref (_ :: es) => termVarsList es
  | .arr es => termVarsList es
  | .obj ps => termVarsPairs ps
  | .set es => termVarsList es
  | _ => ∅
termination_by t => sizeOf t
decreasing_by all_goals (simp_wf <;> omega)

/-- Variables of every element of a term list. -/
def termVarsList : List Value → Finset String
  | [] => ∅
  | e :: es => termVars e ∪ termVarsList es
termination_by es => sizeOf es
decreasing_by all_goals (simp_wf <;> omega)

/-- Variables of the values (not the keys) of a pair list. -/
def termVarsPairs : List (Value × Value) → Finset String
  | [] => ∅
  | p :: ps => termVars p.2 ∪ termVarsPairs ps
termination_by ps => sizeOf ps
decreasing_by all_goals ((obtain ⟨p1, p2⟩ := p) <;> simp_wf <;> omega)

end

/-- The mutable state of `ast/unify.go`'s `unifier`: the set of already
unified variables and the "unknown" dependency map from a variable to
the variables it still awaits.  The Go hash map is modelled as an
association list kept sorted by key, so that evaluation is
deterministic. -/
structure UState where
  unified : Finset String
  unknown : List (String × Finset String)
  deriving DecidableEq

/-- Look a variable up in the dependency map. -/
def lookupUnknown : List (String × Finset String) → String →
    Option (Finset String)
  | [], _ => none
  | (k, d) :: rest, x => if k = x then some d else lookupUnknown rest x

/-- Delete a variable's entry from the dependency map. -/
def eraseKey (x : String) : List (String × Finset String) →
    List (String × Finset String)
  | [] => []
  | (k, d) :: rest =>
    if k = x then eraseKey x rest else (k, d) :: eraseKey x rest

/-- `markUnknown`: record that `a` awaits `b`.  Insertion keeps the
association list sorted by key. -/
def insertDep (a b : String) : List (String × Finset String) →
    List (String × Finset String)
  | [] => [(a, {b})]
  | (k, d) :: rest =>
    if a = k then (k, insert b d) :: rest
    else if a < k then (a, {b}) :: (k, d) :: rest
    else (k, d) :: insertDep a b rest

/-- Total size of the dependency map, the termination measure of
`markSafe`. -/
def unknownWeight : List (String × Finset String) → Nat
  | [] => 0
  | p :: rest => 1 + p.2.card + unknownWeight rest

/-- The dependencies of `x` recorded in the map (`u.unknown[x]`). -/
def msDeps (un : List (String × Finset String)) (x : String) :
    Finset String :=
  (lookupUnknown un x).getD ∅

/-- The dependency map after marking `x` safe: `x`'s entry is deleted
and `x` is removed from every remaining dependency set. -/
def msErase (un : List (String × Finset String)) (x : String) :
    List (String × Finset String) :=
  (eraseKey x un).map (fun p => (p.1, p.2.erase x))

/-- The dependants of `x` whose last dependency was `x`: they become
safe in turn. -/
def msTrig (un : List (String × Finset String)) (x : String) :
    List String :=
  ((eraseKey x un).filter
    (fun p => decide (x ∈ p.2) && decide (p.2.erase x = ∅))).map Prod.fst

theorem unknownWeight_eraseKey_le (x : String) :
    ∀ un, unknownWeight (eraseKey x un) ≤ unknownWeight un := by
  intro un
  induction un with
  | nil => simp [eraseKey, unknownWeight]
  | cons p rest ih =>
    rw [eraseKey]
    by_cases h : p.1 = x
    · obtain ⟨k, d⟩ := p
      simp only at h
      rw [if_pos h, unknownWeight]
      dsimp only
      omega
    · obtain ⟨k, d⟩ := p
      simp only at h
      rw [if_neg h, unknownWeight, unknownWeight]
      dsimp only
      omega

theorem unknownWeight_eraseKey_lt (x : String) :
    ∀ un d, lookupUnknown un x = some d →
      unknownWeight (eraseKey x un) + d.card + 1 ≤ unknownWeight un := by
  intro un
  induction un with
  | nil => intro d h; simp [lookupUnknown] at h
  | cons p rest ih =>
    intro d h
    obtain ⟨k, dd⟩ := p
    rw [lookupUnknown] at h
    by_cases hk : k = x
    · rw [if_pos hk] at h
      cases h
      rw [eraseKey, if_pos hk, unknownWeight]
      dsimp only
      have := unknownWeight_eraseKey_le x rest
      omega
    · rw [if_neg hk] at h
      rw [eraseKey, if_neg hk, unknownWeight, unknownWeight]
      dsimp only
      have := ih d h
      omega

/-- Length of the triggered list is bounded by the number of entries
that still mention `x`, and erasing `x` from the sets recovers at least
that much weight. -/
theorem unknownWeight_map_erase (x : String) :
    ∀ un, unknownWeight (un.map (fun p => (p.1, p.2.erase x))) +
      (un.filter (fun p => decide (x ∈ p.2) && decide (p.2.erase x = ∅))).length
      ≤ unknownWeight un := by
  intro un
  induction un with
  | nil => simp [unknownWeight]
  | cons p rest ih =>
    obtain ⟨k, d⟩ := p
    by_cases hx : x ∈ d
    · have hcard : (d.erase x).card + 1 = d.card := Finset.card_erase_add_one hx
      by_cases hempty : d.erase x = ∅
      · rw [List.map_cons, List.filter_cons_of_pos (by simp [hx, hempty]),
          unknownWeight, unknownWeight]
        dsimp only
        simp only [List.length_cons]
        omega
      · rw [List.map_cons, List.filter_cons_of_neg (by simp [hx, hempty]),
          unknownWeight, unknownWeight]
        dsimp only
        omega
    · have hcard : d.erase x = d := Finset.erase_eq_of_not_mem hx
      rw [List.map_cons, List.filter_cons_of_neg (by simp [hx]),
        unknownWeight, unknownWeight]
      dsimp only
      rw [hcard]
      omega

theorem msStep_measure (un : List (String × Finset String)) (x : String) :
    unknownWeight (msErase un x) + (msDeps un x).card + (msTrig un x).length
      ≤ unknownWeight un := by
  unfold msErase msDeps msTrig
  cases h : lookupUnknown un x with
  | none =>
    simp only [Option.getD_none, Finset.card_empty, List.length_map]
    have h1 := unknownWeight_map_erase x (eraseKey x un)
    have h2 := unknownWeight_eraseKey_le x un
    omega
  | some d =>
    simp only [Option.getD_some, List.length_map]
    have h1 := unknownWeight_map_erase x (eraseKey x un)
    have h2 := unknownWeight_eraseKey_lt x un d h
    omega

/-- Deterministic enumeration of a variable set (the Go `range` over a
`VarSet` is unordered; the model fixes the sorted order). -/
def varList (s : Finset String) : List String := s.sort (fun a b => a ≤ b)

theorem varList_length (s : Finset String) : (varList s).length = s.card :=
  Finset.length_sort _

/-- `markSafe` of `ast/unify.go`, modelled with an explicit worklist:
marking `x` safe adds it to the unified set, removes its entry from the
dependency map, erases it from every dependency set, and queues both the
variables it awaited and the dependants whose last dependency it was. -/
def msWork : UState → List String → UState
  | s, [] => s
  | s, x :: rest =>
    msWork ⟨insert x s.unified, msErase s.unknown x⟩
      (varList (msDeps s.unknown x) ++ msTrig s.unknown x ++ rest)
termination_by s wl => unknownWeight s.unknown + wl.length
decreasing_by
  have h1 := msStep_measure s.unknown x
  have h2 := varList_length (msDeps s.unknown x)
  simp only [List.length_append, List.length_cons]
  omega

/-- `unifier.markSafe`. -/
def markSafe (x : String) (s : UState) : UState := msWork s [x]

/-- `unifier.markAllSafe`: mark every visited variable of the composite
safe (the Go function ignores its second argument). -/
def markAllSafe (x : Value) (s : UState) : UState :=
  (varList (termVars x)).foldl (fun s v => markSafe v s) s

/-- `unifier.markUnknown`. -/
def markUnknown (a b : String) (s : UState) : UState :=
  ⟨s.unified, insertDep a b s.unknown⟩

/-- `unifier.isSafe`: in the fixed safe set or already unified. -/
def isSafe (safe : Finset String) (x : String) (s : UState) : Bool :=
  decide (x ∈ safe) || decide (x ∈ s.unified)

/-- `unifier.unifyAll`: a variable against a composite.  If the variable
is safe, everything in the composite becomes safe; otherwise the
variable waits on the composite's unsafe variables (and is safe at once
when there are none). -/
def unifyAll (safe : Finset String) (a : String) (b : Value) (s : UState) :
    UState :=
  if isSafe safe a s then markAllSafe b s
  else
    let unsafeVars := (termVars b \ safe) \ s.unified
    if unsafeVars = ∅ then markSafe a s
    else (varList unsafeVars).foldl (fun s v => markUnknown a v s) s

theorem sizeOf_map_snd_le : ∀ ps : List (Value × Value),
    sizeOf (ps.map Prod.snd) ≤ sizeOf ps := by
  intro ps
  induction ps with
  | nil => simp
  | cons p rest ih =>
    obtain ⟨a, b⟩ := p
    simp only [List.map_cons, List.cons.sizeOf_spec, Prod.mk.sizeOf_spec]
    omega


mutual

/-- `unifier.unify` of `ast/unify.go`, embedded switch by switch.  Note
that two objects are unified by position over their value lists, keys
are ignored. -/
def unifyV (safe : Finset String) : Value → Value → UState → UState
  | .var a, b, s =>
    match b with
    | .var bv =>
      if isSafe safe bv s then markSafe a s
      else if isSafe safe a s then markSafe bv s
      else markUnknown bv a (markUnknown a bv s)
    | .arr es => unifyAll safe a (.arr es) s
    | .obj ps => unifyAll safe a (.obj ps) s
    | _ => markSafe a s
  | .ref as, b, s =>
    match b with
    | .var bv => markSafe bv s
    | .arr es => markAllSafe (.arr es) s
    | .obj ps => markAllSafe (.obj ps) s
    | _ => s
  | .acomp h hs, b, s =>
    match b with
    | .var bv => markSafe bv s
    | .arr es => markAllSafe (.arr es) s
    | _ => s
  | .arr as, b, s =>
    match b with
    | .var bv => unifyAll safe bv (.arr as) s
    | .ref _ => markAllSafe (.arr as) s
    | .acomp _ _ => markAllSafe (.arr as) s
    | .arr bs =>
      if as.length = bs.length then unifyList safe as bs s else s
    | _ => s
  | .obj as, b, s =>
    match b with
    | .var bv => unifyAll safe bv (.obj as) s
    | .ref _ => markAllSafe (.obj as) s
    | .obj bs =>
      if as.length = bs.length then
        unifyList safe (as.map Prod.snd) (bs.map Prod.snd) s
      else s
    | _ => s
  | a, b, s =>
    match b with
    | .var bv => markSafe bv s
    | _ => s
termination_by a b s => sizeOf a + sizeOf b
decreasing_by
  all_goals simp_wf
  all_goals try omega
  all_goals
    (have h1 := sizeOf_map_snd_le as
     have h2 := sizeOf_map_snd_le bs
     omega)

/-- Elementwise unification of two term lists (the loops of the `Array`
and `Object` cases). -/
def unifyList (safe : Finset String) :
    List Value → List Value → UState → UState
  | a :: as, b :: bs, s => unifyList safe as bs (unifyV safe a b s)
  | _, _, s => s
termination_by as bs s => sizeOf as + sizeOf bs
decreasing_by
  all_goals simp_wf
  all_goals omega

end

/-- `ast.Unify`: the set of variables that become unified when the
equality of `a` and `b` is analysed, given that the variables of `safe`
are already safe. -/
def Unify (safe : Finset String) (a b : Value) : Finset String :=
  (unifyV safe a b ⟨∅, []⟩).unified

theorem msWork_nil (s : UState) : msWork s [] = s := by
  rw [msWork]

theorem msWork_cons (s : UState) (x : String) (rest : List String) :
    msWork s (x :: rest) =
      msWork ⟨insert x s.unified, msErase s.unknown x⟩
        (varList (msDeps s.unknown x) ++ msTrig s.unknown x ++ rest) := by
  rw [msWork]

theorem msWork_measure_step (un : List (String × Finset String)) (x : String)
    (rest : List String) :
    unknownWeight (msErase un x) +
      (varList (msDeps un x) ++ msTrig un x ++ rest).length + 1 ≤
      unknownWeight un + (x :: rest).length := by
  have h1 := msStep_measure un x
  have h2 := varList_length (msDeps un x)
  simp only [List.length_append, List.length_cons]
  omega

/-- The effect of `markSafe` on the unified set is determined by the
dependency map alone: running from any starting state adds the same set
of variables. -/
theorem msWork_shift : ∀ (n : Nat) (un : List (String × Finset String))
    (wl : List String) (u : Finset String),
    unknownWeight un + wl.length ≤ n →
    msWork ⟨u, un⟩ wl =
      ⟨u ∪ (msWork ⟨∅, un⟩ wl).unified, (msWork ⟨∅, un⟩ wl).unknown⟩ := by
  intro n
  induction n with
  | zero =>
    intro un wl u hn
    cases wl with
    | nil => simp [msWork_nil]
    | cons x rest => simp at hn
  | succ n ih =>
    intro un wl u hn
    cases wl with
    | nil => simp [msWork_nil]
    | cons x rest =>
      rw [msWork_cons, msWork_cons]
      simp only
      have hm := msWork_measure_step un x rest
      rw [ih (msErase un x) _ (insert x u)
          (by simp only [List.length_cons] at hn hm; omega),
        ih (msErase un x) _ (insert x (∅ : Finset String))
          (by simp only [List.length_cons] at hn hm; omega)]
      rw [UState.mk.injEq]
      dsimp only
      constructor
      · ext y
        simp
        tauto
      · rfl

theorem msWork_rel (safe : Finset String) (s1 s2 : UState)
    (wl : List String) (hun : s1.unknown = s2.unknown)
    (huni : s1.unified ∪ safe = s2.unified ∪ safe) :
    (msWork s1 wl).unknown = (msWork s2 wl).unknown ∧
      (msWork s1 wl).unified ∪ safe = (msWork s2 wl).unified ∪ safe := by
  obtain ⟨u1, un1⟩ := s1
  obtain ⟨u2, un2⟩ := s2
  simp only at hun huni
  subst hun
  rw [msWork_shift (unknownWeight un1 + wl.length) un1 wl u1 le_rfl,
    msWork_shift (unknownWeight un1 + wl.length) un1 wl u2 le_rfl]
  constructor
  · rfl
  · simp only
    rw [Finset.union_right_comm, huni, Finset.union_right_comm]

/-- Invariant of reachable unifier states: a safe or already-unified
variable has no entry in the dependency map and occurs in no dependency
set. -/
def UInv (safe : Finset String) (s : UState) : Prop :=
  ∀ x, x ∈ safe ∪ s.unified →
    lookupUnknown s.unknown x = none ∧ ∀ p ∈ s.unknown, x ∉ p.2

theorem lookupUnknown_eraseKey_self (x : String) :
    ∀ un, lookupUnknown (eraseKey x un) x = none := by
  intro un
  induction un with
  | nil => simp [eraseKey, lookupUnknown]
  | cons p rest ih =>
    obtain ⟨k, d⟩ := p
    rw [eraseKey]
    by_cases hk : k = x
    · rw [if_pos hk]
      exact ih
    · rw [if_neg hk, lookupUnknown, if_neg hk]
      exact ih

theorem lookupUnknown_none_eraseKey (x y : String) :
    ∀ un, lookupUnknown un y = none →
      lookupUnknown (eraseKey x un) y = none := by
  intro un
  induction un with
  | nil => simp [eraseKey, lookupUnknown]
  | cons p rest ih =>
    obtain ⟨k, d⟩ := p
    intro h
    rw [lookupUnknown] at h
    by_cases hk : k = y
    · rw [if_pos hk] at h
      cases h
    · rw [if_neg hk] at h
      rw [eraseKey]
      by_cases hx : k = x
      · rw [if_pos hx]
        exact ih h
      · rw [if_neg hx, lookupUnknown, if_neg hk]
        exact ih h

theorem lookupUnknown_map_erase (x y : String) :
    ∀ un, lookupUnknown (un.map (fun p => (p.1, p.2.erase x))) y =
      (lookupUnknown un y).map (fun d => d.erase x) := by
  intro un
  induction un with
  | nil => simp [lookupUnknown]
  | cons p rest ih =>
    obtain ⟨k, d⟩ := p
    rw [List.map_cons]
    by_cases hk : k = y
    · rw [lookupUnknown, lookupUnknown]
      dsimp only
      rw [if_pos hk, if_pos hk]
      rfl
    · rw [lookupUnknown, lookupUnknown]
      dsimp only
      rw [if_neg hk, if_neg hk]
      exact ih

theorem mem_eraseKey (x : String) (p : String × Finset String) :
    ∀ un, p ∈ eraseKey x un → p ∈ un := by
  intro un
  induction un with
  | nil => simp [eraseKey]
  | cons q rest ih =>
    obtain ⟨k, d⟩ := q
    rw [eraseKey]
    by_cases hk : k = x
    · rw [if_pos hk]
      intro h
      exact List.mem_cons_of_mem _ (ih h)
    · rw [if_neg hk]
      intro h
      rcases List.mem_cons.mp h with h | h
      · simp [h]
      · exact List.mem_cons_of_mem _ (ih h)

theorem eraseKey_of_lookup_none (x : String) :
    ∀ un, lookupUnknown un x = none → eraseKey x un = un := by
  intro un
  induction un with
  | nil => simp [eraseKey]
  | cons p rest ih =>
    obtain ⟨k, d⟩ := p
    intro h
    rw [lookupUnknown] at h
    by_cases hk : k = x
    · rw [if_pos hk] at h
      cases h
    · rw [if_neg hk] at h
      rw [eraseKey, if_neg hk, ih h]

theorem map_erase_of_not_mem (x : String) :
    ∀ un : List (String × Finset String), (∀ p ∈ un, x ∉ p.2) →
      un.map (fun p => (p.1, p.2.erase x)) = un := by
  intro un
  induction un with
  | nil => simp
  | cons p rest ih =>
    intro h
    obtain ⟨k, d⟩ := p
    rw [List.map_cons]
    have h1 : x ∉ d := h (k, d) (by simp)
    rw [ih (fun q hq => h q (by simp [hq]))]
    dsimp only
    rw [Finset.erase_eq_of_not_mem h1]

theorem msTrig_nil_of_not_mem (x : String)
    (un : List (String × Finset String)) (h : ∀ p ∈ un, x ∉ p.2) :
    msTrig un x = [] := by
  unfold msTrig
  rw [List.filter_eq_nil_iff.mpr, List.map_nil]
  intro p hp
  have := h p (mem_eraseKey x p un hp)
  simp [this]

/-- `msWork` preserves the state invariant. -/
theorem msWork_uinv (safe : Finset String) : ∀ (n : Nat) (s : UState)
    (wl : List String), unknownWeight s.unknown + wl.length ≤ n →
    UInv safe s → UInv safe (msWork s wl) := by
  intro n
  induction n with
  | zero =>
    intro s wl hn hinv
    cases wl with
    | nil => rw [msWork_nil]; exact hinv
    | cons x rest => simp at hn
  | succ n ih =>
    intro s wl hn hinv
    cases wl with
    | nil => rw [msWork_nil]; exact hinv
    | cons x rest =>
      rw [msWork_cons]
      have hm := msWork_measure_step s.unknown x rest
      apply ih _ _ (by dsimp only; simp only [List.length_cons] at hn hm; omega)
      intro y hy
      simp only at hy ⊢
      constructor
      · unfold msErase
        rw [lookupUnknown_map_erase]
        by_cases hyx : y = x
        · subst hyx
          rw [lookupUnknown_eraseKey_self]
          rfl
        · rcases Finset.mem_union.mp hy with hy2 | hy2
          · rw [lookupUnknown_none_eraseKey x y _
              (hinv y (Finset.mem_union_left _ hy2)).1]
            rfl
          · have hy3 := Finset.mem_insert.mp hy2
            rcases hy3 with hy3 | hy3
            · exact absurd hy3 hyx
            · rw [lookupUnknown_none_eraseKey x y _
                (hinv y (Finset.mem_union_right _ hy3)).1]
              rfl
      · intro p hp
        unfold msErase at hp
        obtain ⟨q, hq, rfl⟩ := List.mem_map.mp hp
        dsimp only
        by_cases hyx : y = x
        · subst hyx
          exact Finset.not_mem_erase _ _
        · intro hmem
          have hmem2 : y ∈ q.2 := Finset.mem_of_mem_erase hmem
          have hq2 := mem_eraseKey x q _ hq
          rcases Finset.mem_union.mp hy with hy2 | hy2
          · exact (hinv y (Finset.mem_union_left _ hy2)).2 q hq2 hmem2
          · rcases Finset.mem_insert.mp hy2 with hy3 | hy3
            · exact absurd hy3 hyx
            · exact (hinv y (Finset.mem_union_right _ hy3)).2 q hq2 hmem2

/-- Marking an already-safe variable is a no-op apart from re-inserting
it into the unified set. -/
theorem markSafe_noop (safe : Finset String) (s : UState) (a : String)
    (hinv : UInv safe s) (ha : a ∈ safe ∪ s.unified) :
    markSafe a s = ⟨insert a s.unified, s.unknown⟩ := by
  obtain ⟨hlk, hdeps⟩ := hinv a ha
  unfold markSafe
  rw [msWork_cons]
  have h1 : msDeps s.unknown a = ∅ := by
    unfold msDeps
    rw [hlk]
    rfl
  have h2 : msErase s.unknown a = s.unknown := by
    unfold msErase
    rw [eraseKey_of_lookup_none a _ hlk, map_erase_of_not_mem a _ hdeps]
  have h3 : msTrig s.unknown a = [] := by
    unfold msTrig
    rw [eraseKey_of_lookup_none a _ hlk]
    rw [List.filter_eq_nil_iff.mpr, List.map_nil]
    intro p hp
    simp [hdeps p hp]
  rw [h1, h2, h3]
  simp only [Finset.sort_empty, varList]
  rw [List.nil_append, List.nil_append, msWork_nil]

theorem lookupUnknown_insertDep_ne (a b y : String) (hne : y ≠ a) :
    ∀ un, lookupUnknown (insertDep a b un) y = lookupUnknown un y := by
  intro un
  induction un with
  | nil =>
    simp only [insertDep, lookupUnknown]
    rw [if_neg (fun h : a = y => hne h.symm)]
  | cons p rest ih =>
    obtain ⟨k, d⟩ := p
    rw [insertDep]
    by_cases hak : a = k
    · subst hak
      rw [if_pos rfl, lookupUnknown, lookupUnknown,
        if_neg (fun h : a = y => hne h.symm),
        if_neg (fun h : a = y => hne h.symm)]
    · rw [if_neg hak]
      by_cases halt : a < k
      · rw [if_pos halt, lookupUnknown, if_neg (fun h : a = y => hne h.symm)]
      · rw [if_neg halt, lookupUnknown, lookupUnknown]
        by_cases hky : k = y
        · rw [if_pos hky, if_pos hky]
        · rw [if_neg hky, if_neg hky]
          exact ih

theorem mem_insertDep (a b : String) (p : String × Finset String) :
    ∀ un, p ∈ insertDep a b un →
      p ∈ un ∨ p = (a, {b}) ∨ ∃ d, (a, d) ∈ un ∧ p = (a, insert b d) := by
  intro un
  induction un with
  | nil =>
    intro h
    simp [insertDep] at h
    simp [h]
  | cons q rest ih =>
    obtain ⟨k, d⟩ := q
    intro h
    rw [insertDep] at h
    by_cases hak : a = k
    · subst hak
      rw [if_pos rfl] at h
      rcases List.mem_cons.mp h with h | h
      · exact Or.inr (Or.inr ⟨d, by simp, by simp [h]⟩)
      · exact Or.inl (List.mem_cons_of_mem _ h)
    · rw [if_neg hak] at h
      by_cases halt : a < k
      · rw [if_pos halt] at h
        rcases List.mem_cons.mp h with h | h
        · exact Or.inr (Or.inl h)
        · exact Or.inl h
      · rw [if_neg halt] at h
        rcases List.mem_cons.mp h with h | h
        · exact Or.inl (by simp [h])
        · rcases ih h with h2 | h2 | ⟨d2, hd2, hp⟩
          · exact Or.inl (List.mem_cons_of_mem _ h2)
          · exact Or.inr (Or.inl h2)
          · exact Or.inr (Or.inr ⟨d2, List.mem_cons_of_mem _ hd2, hp⟩)

theorem uinv_insertDep (safe : Finset String) (s : UState) (a b : String)
    (hinv : UInv safe s) (ha : a ∉ safe ∪ s.unified)
    (hb : b ∉ safe ∪ s.unified) :
    UInv safe ⟨s.unified, insertDep a b s.unknown⟩ := by
  intro y hy
  simp only at hy ⊢
  have hya : y ≠ a := fun h => ha (h ▸ hy)
  have hyb : y ≠ b := fun h => hb (h ▸ hy)
  constructor
  · rw [lookupUnknown_insertDep_ne a b y hya]
    exact (hinv y hy).1
  · intro p hp
    rcases mem_insertDep a b p _ hp with h | h | ⟨d, hd, hpd⟩
    · exact (hinv y hy).2 p h
    · subst h
      simp [hyb]
    · subst hpd
      simp only
      intro hmem
      rcases Finset.mem_insert.mp hmem with h | h
      · exact hyb h
      · exact (hinv y hy).2 (a, d) hd h

theorem insertDep_comm (a1 b1 a2 b2 : String) (hne : a1 ≠ a2) :
    ∀ un, insertDep a1 b1 (insertDep a2 b2 un) =
      insertDep a2 b2 (insertDep a1 b1 un) := by
  intro un
  induction un with
  | nil =>
    rcases lt_trichotomy a1 a2 with h | h | h
    · simp [insertDep, hne, Ne.symm hne, h, lt_asymm h]
    · exact absurd h hne
    · simp [insertDep, hne, Ne.symm hne, h, lt_asymm h]
  | cons q rest ih =>
    obtain ⟨k, d⟩ := q
    rcases lt_trichotomy a1 k with h1 | h1 | h1 <;>
      rcases lt_trichotomy a2 k with h2 | h2 | h2
    · rcases lt_trichotomy a1 a2 with h3 | h3 | h3
      · simp [insertDep, hne, Ne.symm hne, h1, h2, h3, ne_of_lt h1,
          ne_of_lt h2, lt_asymm h3]
      · exact absurd h3 hne
      · simp [insertDep, hne, Ne.symm hne, h1, h2, h3, ne_of_lt h1,
          ne_of_lt h2, lt_asymm h3]
    · subst h2
      simp [insertDep, hne, Ne.symm hne, h1, ne_of_lt h1, lt_asymm h1]
    · have h4 : a1 < a2 := h1.trans h2
      simp [insertDep, hne, Ne.symm hne, h1, h2, ne_of_lt h1, ne_of_gt h2,
        lt_asymm h1, lt_asymm h2, h4, lt_asymm h4]
    · subst h1
      simp [insertDep, hne, Ne.symm hne, h2, ne_of_lt h2, lt_asymm h2]
    · exact absurd (h1.trans h2.symm) hne
    · subst h1
      simp [insertDep, hne, Ne.symm hne, h2, ne_of_gt h2, lt_asymm h2]
    · have h4 : a2 < a1 := h2.trans h1
      simp [insertDep, hne, Ne.symm hne, h1, h2, ne_of_gt h1, ne_of_lt h2,
        lt_asymm h1, lt_asymm h2, h4, lt_asymm h4]
    · subst h2
      simp [insertDep, hne, Ne.symm hne, h1, ne_of_gt h1, lt_asymm h1]
    · simp [insertDep, ih, hne, Ne.symm hne, h1, h2, ne_of_gt h1,
        ne_of_gt h2, lt_asymm h1, lt_asymm h2]

/-- The simulation relation between the two argument orders of the
unifier: equal dependency maps and equal unified sets modulo `safe`. -/
def URel (safe : Finset String) (s1 s2 : UState) : Prop :=
  s1.unknown = s2.unknown ∧ s1.unified ∪ safe = s2.unified ∪ safe

theorem markSafe_rel (safe : Finset String) (x : String) (s1 s2 : UState)
    (h : URel safe s1 s2) : URel safe (markSafe x s1) (markSafe x s2) :=
  msWork_rel safe s1 s2 [x] h.1 h.2

theorem markSafe_uinv (safe : Finset String) (x : String) (s : UState)
    (h : UInv safe s) : UInv safe (markSafe x s) :=
  msWork_uinv safe (unknownWeight s.unknown + 1) s [x] le_rfl h

theorem foldl_markSafe_rel (safe : Finset String) (l : List String) :
    ∀ s1 s2, URel safe s1 s2 →
      URel safe (l.foldl (fun s v => markSafe v s) s1)
        (l.foldl (fun s v => markSafe v s) s2) := by
  induction l with
  | nil => intro s1 s2 h; exact h
  | cons x l ih =>
    intro s1 s2 h
    exact ih _ _ (markSafe_rel safe x s1 s2 h)

theorem foldl_markSafe_uinv (safe : Finset String) (l : List String) :
    ∀ s, UInv safe s → UInv safe (l.foldl (fun s v => markSafe v s) s) := by
  induction l with
  | nil => intro s h; exact h
  | cons x l ih =>
    intro s h
    exact ih _ (markSafe_uinv safe x s h)

theorem markAllSafe_rel (safe : Finset String) (c : Value) (s1 s2 : UState)
    (h : URel safe s1 s2) : URel safe (markAllSafe c s1) (markAllSafe c s2) :=
  foldl_markSafe_rel safe _ s1 s2 h

theorem markAllSafe_uinv (safe : Finset String) (c : Value) (s : UState)
    (h : UInv safe s) : UInv safe (markAllSafe c s) :=
  foldl_markSafe_uinv safe _ s h

theorem isSafe_rel (safe : Finset String) (x : String) (s1 s2 : UState)
    (h : URel safe s1 s2) : isSafe safe x s1 = isSafe safe x s2 := by
  unfold isSafe
  have h1 : (x ∈ safe ∨ x ∈ s1.unified) ↔ (x ∈ safe ∨ x ∈ s2.unified) := by
    constructor
    · intro hx
      have : x ∈ s1.unified ∪ safe := by
        rcases hx with hx | hx
        · exact Finset.mem_union_right _ hx
        · exact Finset.mem_union_left _ hx
      rw [h.2] at this
      rcases Finset.mem_union.mp this with hx2 | hx2
      · exact Or.inr hx2
      · exact Or.inl hx2
    · intro hx
      have : x ∈ s2.unified ∪ safe := by
        rcases hx with hx | hx
        · exact Finset.mem_union_right _ hx
        · exact Finset.mem_union_left _ hx
      rw [← h.2] at this
      rcases Finset.mem_union.mp this with hx2 | hx2
      · exact Or.inr hx2
      · exact Or.inl hx2
  rw [Bool.eq_iff_iff]
  simp only [Bool.or_eq_true, decide_eq_true_eq]
  exact h1

theorem isSafe_mem (safe : Finset String) (x : String) (s : UState)
    (h : isSafe safe x s = true) : x ∈ safe ∪ s.unified := by
  unfold isSafe at h
  simp only [Bool.or_eq_true, decide_eq_true_eq] at h
  rcases h with h | h
  · exact Finset.mem_union_left _ h
  · exact Finset.mem_union_right _ h

theorem isSafe_not_mem (safe : Finset String) (x : String) (s : UState)
    (h : isSafe safe x s = false) : x ∉ safe ∪ s.unified := by
  unfold isSafe at h
  simp only [Bool.or_eq_false_iff, decide_eq_false_iff_not] at h
  intro hmem
  rcases Finset.mem_union.mp hmem with h2 | h2
  · exact h.1 h2
  · exact h.2 h2

theorem markUnknown_rel (safe : Finset String) (a b : String)
    (s1 s2 : UState) (h : URel safe s1 s2) :
    URel safe (markUnknown a b s1) (markUnknown a b s2) := by
  unfold markUnknown
  exact ⟨by simp only [h.1], h.2⟩

theorem foldl_markUnknown_unified (a : String) :
    ∀ (l : List String) (s : UState),
      (l.foldl (fun s v => markUnknown a v s) s).unified = s.unified := by
  intro l
  induction l with
  | nil => intro s; rfl
  | cons x l ih => intro s; rw [List.foldl_cons, ih]; rfl

theorem foldl_markUnknown_rel (safe : Finset String) (a : String)
    (l : List String) : ∀ s1 s2, URel safe s1 s2 →
      URel safe (l.foldl (fun s v => markUnknown a v s) s1)
        (l.foldl (fun s v => markUnknown a v s) s2) := by
  induction l with
  | nil => intro s1 s2 h; exact h
  | cons x l ih =>
    intro s1 s2 h
    exact ih _ _ (markUnknown_rel safe a x s1 s2 h)

theorem foldl_markUnknown_uinv (safe : Finset String) (a : String)
    (l : List String) : ∀ s, UInv safe s → a ∉ safe ∪ s.unified →
      (∀ v ∈ l, v ∉ safe ∪ s.unified) →
      UInv safe (l.foldl (fun s v => markUnknown a v s) s) := by
  induction l with
  | nil => intro s h _ _; exact h
  | cons x l ih =>
    intro s h ha hl
    rw [List.foldl_cons]
    have hstep : UInv safe (markUnknown a x s) :=
      uinv_insertDep safe s a x h ha (hl x (by simp))
    have hu : (markUnknown a x s).unified = s.unified := rfl
    apply ih _ hstep
    · rw [hu]; exact ha
    · intro v hv
      rw [hu]
      exact hl v (by simp [hv])

theorem unifyAll_rel (safe : Finset String) (a : String) (b : Value)
    (s1 s2 : UState) (hrel : URel safe s1 s2) (h1 : UInv safe s1) :
    URel safe (unifyAll safe a b s1) (unifyAll safe a b s2) := by
  unfold unifyAll
  rw [isSafe_rel safe a s1 s2 hrel]
  by_cases hs : isSafe safe a s2 = true
  · rw [hs]
    simp only [if_true]
    exact markAllSafe_rel safe b s1 s2 hrel
  · rw [Bool.not_eq_true] at hs
    rw [hs]
    simp only [Bool.false_eq_true, if_false]
    have hset : (termVars b \ safe) \ s1.unified =
        (termVars b \ safe) \ s2.unified := by
      ext x
      simp only [Finset.mem_sdiff]
      constructor
      · rintro ⟨⟨hx1, hx2⟩, hx3⟩
        refine ⟨⟨hx1, hx2⟩, ?_⟩
        intro hx4
        have : x ∈ s2.unified ∪ safe := Finset.mem_union_left _ hx4
        rw [← hrel.2] at this
        rcases Finset.mem_union.mp this with h | h
        · exact hx3 h
        · exact hx2 h
      · rintro ⟨⟨hx1, hx2⟩, hx3⟩
        refine ⟨⟨hx1, hx2⟩, ?_⟩
        intro hx4
        have : x ∈ s1.unified ∪ safe := Finset.mem_union_left _ hx4
        rw [hrel.2] at this
        rcases Finset.mem_union.mp this with h | h
        · exact hx3 h
        · exact hx2 h
    rw [← hset]
    by_cases hempty : (termVars b \ safe) \ s1.unified = ∅
    · rw [if_pos hempty, if_pos hempty]
      exact markSafe_rel safe a s1 s2 hrel
    · rw [if_neg hempty, if_neg hempty]
      exact foldl_markUnknown_rel safe a _ s1 s2 hrel

theorem unifyAll_uinv (safe : Finset String) (a : String) (b : Value)
    (s : UState) (h : UInv safe s) : UInv safe (unifyAll safe a b s) := by
  unfold unifyAll
  by_cases hs : isSafe safe a s = true
  · rw [hs]
    simp only [if_true]
    exact markAllSafe_uinv safe b s h
  · rw [Bool.not_eq_true] at hs
    rw [hs]
    simp only [Bool.false_eq_true, if_false]
    by_cases hempty : (termVars b \ safe) \ s.unified = ∅
    · rw [if_pos hempty]
      exact markSafe_uinv safe a s h
    · rw [if_neg hempty]
      apply foldl_markUnknown_uinv safe a _ s h (isSafe_not_mem safe a s hs)
      intro v hv
      have hv2 := (Finset.mem_sort _).mp hv
      simp only [Finset.mem_sdiff] at hv2
      intro hmem
      rcases Finset.mem_union.mp hmem with h2 | h2
      · exact hv2.1.2 h2
      · exact hv2.2 h2

theorem insert_union_absorb (x : String) (u safeS : Finset String)
    (h : x ∈ safeS ∪ u) : insert x u ∪ safeS = u ∪ safeS := by
  have h2 := Finset.mem_union.mp h
  ext z
  simp only [Finset.mem_union, Finset.mem_insert]
  constructor
  · rintro ((rfl | hz) | hz)
    · tauto
    · tauto
    · tauto
  · intro hz
    tauto

/-- The central simulation: swapping the two arguments of the unifier
yields the same dependency map and the same unified set modulo the safe
set, through every case of the analysis. -/
theorem unify_sim (safe : Finset String) : ∀ n : Nat,
    (∀ a b : Value, sizeOf a + sizeOf b ≤ n → ∀ s1 s2,
      URel safe s1 s2 → UInv safe s1 → UInv safe s2 →
      URel safe (unifyV safe a b s1) (unifyV safe b a s2) ∧
      UInv safe (unifyV safe a b s1) ∧ UInv safe (unifyV safe b a s2)) ∧
    (∀ as bs : List Value, sizeOf as + sizeOf bs ≤ n → ∀ s1 s2,
      URel safe s1 s2 → UInv safe s1 → UInv safe s2 →
      URel safe (unifyList safe as bs s1) (unifyList safe bs as s2) ∧
      UInv safe (unifyList safe as bs s1) ∧
      UInv safe (unifyList safe bs as s2)) := by
  intro n
  induction n using Nat.strong_induction_on with
  | _ n ihn =>
  constructor
  · intro a b hn s1 s2 hrel h1 h2
    rcases a with _ | xb | xn | xs | x | ras | aas | aps | sas | ⟨ah, abody⟩ <;>
      rcases b with _ | yb | yn | ys | y | rbs | bas | bps | sbs | ⟨bh, bbody⟩ <;>
      simp only [unifyV] <;>
      first
      | exact ⟨hrel, h1, h2⟩
      | exact ⟨markSafe_rel safe _ _ _ hrel, markSafe_uinv safe _ _ h1,
          markSafe_uinv safe _ _ h2⟩
      | exact ⟨markAllSafe_rel safe _ _ _ hrel, markAllSafe_uinv safe _ _ h1,
          markAllSafe_uinv safe _ _ h2⟩
      | exact ⟨unifyAll_rel safe _ _ _ _ hrel h1, unifyAll_uinv safe _ _ _ h1,
          unifyAll_uinv safe _ _ _ h2⟩
      | (by_cases hlen : aas.length = bas.length
         · rw [if_pos hlen, if_pos hlen.symm]
           have hsz : sizeOf aas + sizeOf bas < n := by
             simp only [Value.arr.sizeOf_spec] at hn
             omega
           exact (ihn _ hsz).2 aas bas le_rfl s1 s2 hrel h1 h2
         · rw [if_neg hlen, if_neg (fun h => hlen h.symm)]
           exact ⟨hrel, h1, h2⟩)
      | (by_cases hlen : aps.length = bps.length
         · rw [if_pos hlen, if_pos hlen.symm]
           have g1 := sizeOf_map_snd_le aps
           have g2 := sizeOf_map_snd_le bps
           have hsz : sizeOf (aps.map Prod.snd) + sizeOf (bps.map Prod.snd)
               < n := by
             simp only [Value.obj.sizeOf_spec] at hn
             omega
           exact (ihn _ hsz).2 _ _ le_rfl s1 s2 hrel h1 h2
         · rw [if_neg hlen, if_neg (fun h => hlen h.symm)]
           exact ⟨hrel, h1, h2⟩)
      | skip
    rw [isSafe_rel safe y s1 s2 hrel, isSafe_rel safe x s1 s2 hrel]
    by_cases hy : isSafe safe y s2 = true
    · by_cases hx : isSafe safe x s2 = true
      · rw [if_pos hy, if_pos hx]
        have hx1 : x ∈ safe ∪ s1.unified :=
          isSafe_mem safe x s1
            (by rw [isSafe_rel safe x s1 s2 hrel]; exact hx)
        have hy2 : y ∈ safe ∪ s2.unified := isSafe_mem safe y s2 hy
        have e1 := markSafe_noop safe s1 x h1 hx1
        have e2 := markSafe_noop safe s2 y h2 hy2
        refine ⟨?_, ?_, ?_⟩
        · rw [e1, e2]
          refine ⟨hrel.1, ?_⟩
          simp only
          rw [insert_union_absorb x _ safe hx1,
            insert_union_absorb y _ safe hy2]
          exact hrel.2
        · exact markSafe_uinv safe x s1 h1
        · exact markSafe_uinv safe y s2 h2
      · rw [if_pos hy, if_neg hx, if_pos hy]
        exact ⟨markSafe_rel safe x s1 s2 hrel, markSafe_uinv safe _ _ h1,
          markSafe_uinv safe _ _ h2⟩
    · by_cases hx : isSafe safe x s2 = true
      · rw [if_neg hy, if_pos hx, if_pos hx]
        exact ⟨markSafe_rel safe y s1 s2 hrel, markSafe_uinv safe _ _ h1,
          markSafe_uinv safe _ _ h2⟩
      · rw [if_neg hy, if_neg hx, if_neg hx, if_neg hy]
        have hxf : isSafe safe x s2 = false := Bool.eq_false_iff.mpr hx
        have hyf : isSafe safe y s2 = false := Bool.eq_false_iff.mpr hy
        have hxm1 : x ∉ safe ∪ s1.unified :=
          isSafe_not_mem safe x s1
            (by rw [isSafe_rel safe x s1 s2 hrel]; exact hxf)
        have hym1 : y ∉ safe ∪ s1.unified :=
          isSafe_not_mem safe y s1
            (by rw [isSafe_rel safe y s1 s2 hrel]; exact hyf)
        have hxm2 : x ∉ safe ∪ s2.unified := isSafe_not_mem safe x s2 hxf
        have hym2 : y ∉ safe ∪ s2.unified := isSafe_not_mem safe y s2 hyf
        refine ⟨⟨?_, ?_⟩, ?_, ?_⟩
        · simp only [markUnknown]
          rw [hrel.1]
          by_cases hxy : x = y
          · subst hxy
            rfl
          · exact insertDep_comm y x x y (fun h => hxy h.symm) s2.unknown
        · simp only [markUnknown]
          exact hrel.2
        · exact uinv_insertDep safe ⟨s1.unified, insertDep x y s1.unknown⟩
            y x (uinv_insertDep safe s1 x y h1 hxm1 hym1) hym1 hxm1
        · exact uinv_insertDep safe ⟨s2.unified, insertDep y x s2.unknown⟩
            x y (uinv_insertDep safe s2 y x h2 hym2 hxm2) hxm2 hym2
  · intro as bs hn s1 s2 hrel h1 h2
    cases as with
    | nil =>
      cases bs with
      | nil =>
        simp only [unifyList]
        exact ⟨hrel, h1, h2⟩
      | cons b bs2 =>
        simp only [unifyList]
        exact ⟨hrel, h1, h2⟩
    | cons a as2 =>
      cases bs with
      | nil =>
        simp only [unifyList]
        exact ⟨hrel, h1, h2⟩
      | cons b bs2 =>
        simp only [unifyList]
        have hab : sizeOf a + sizeOf b < n := by
          simp only [List.cons.sizeOf_spec] at hn
          omega
        obtain ⟨r1, i1, i2⟩ :=
          (ihn _ hab).1 a b le_rfl s1 s2 hrel h1 h2
        have has : sizeOf as2 + sizeOf bs2 < n := by
          simp only [List.cons.sizeOf_spec] at hn
          omega
        exact (ihn _ has).2 as2 bs2 le_rfl _ _ r1 i1 i2

/-- Swapping the unifier's arguments leaves the unified set unchanged
modulo the safe set: the two runs from the empty state stay related. -/
theorem Unify_symm_mod_safe (safe : Finset String) (a b : Value) :
    Unify safe a b ∪ safe = Unify safe b a ∪ safe := by
  have hinv : UInv safe (⟨∅, []⟩ : UState) := by
    intro x hx
    exact ⟨rfl, by intro p hp; cases hp⟩
  have h := (unify_sim safe (sizeOf a + sizeOf b)).1 a b le_rfl
    ⟨∅, []⟩ ⟨∅, []⟩ ⟨rfl, rfl⟩ hinv hinv
  exact h.1.2

/-- Plugging against the empty environment is the identity, whatever the
on-stack set holds. -/
theorem plugVal_nil_env : ∀ (v : Value) (seen : List Value),
    plugVal [] seen v = v := by
  intro v
  induction v using Value.myInduction with
  | hnull =>
    intro seen
    by_cases hs : Value.null ∈ seen
    · exact plugVal_seen _ _ _ hs
    · exact plugVal_null _ _ hs rfl
  | hbool b =>
    intro seen
    by_cases hs : Value.bool b ∈ seen
    · exact plugVal_seen _ _ _ hs
    · exact plugVal_bool _ _ b hs rfl
  | hnum m =>
    intro seen
    by_cases hs : Value.num m ∈ seen
    · exact plugVal_seen _ _ _ hs
    · exact plugVal_num _ _ m hs rfl
  | hstr t =>
    intro seen
    by_cases hs : Value.str t ∈ seen
    · exact plugVal_seen _ _ _ hs
    · exact plugVal_str _ _ t hs rfl
  | hvar x =>
    intro seen
    by_cases hs : Value.var x ∈ seen
    · exact plugVal_seen _ _ _ hs
    · exact plugVal_var _ _ x hs rfl
  | href as ih =>
    intro seen
    by_cases hs : Value.ref as ∈ seen
    · exact plugVal_seen _ _ _ hs
    · rw [plugVal_ref ([] : List (Value × Value)) _ as hs rfl, plugList_eq_map]
      have hmap : as.map (plugVal [] (Value.ref as :: seen)) = as.map id :=
        List.map_congr_left (fun a ha => ih a ha _)
      rw [hmap, List.map_id]
  | harr as ih =>
    intro seen
    by_cases hs : Value.arr as ∈ seen
    · exact plugVal_seen _ _ _ hs
    · rw [plugVal_arr ([] : List (Value × Value)) _ as hs rfl, plugList_eq_map]
      have hmap : as.map (plugVal [] (Value.arr as :: seen)) = as.map id :=
        List.map_congr_left (fun a ha => ih a ha _)
      rw [hmap, List.map_id]
  | hset as ih =>
    intro seen
    by_cases hs : Value.set as ∈ seen
    · exact plugVal_seen _ _ _ hs
    · rw [plugVal_set ([] : List (Value × Value)) _ as hs rfl, plugList_eq_map]
      have hmap : as.map (plugVal [] (Value.set as :: seen)) = as.map id :=
        List.map_congr_left (fun a ha => ih a ha _)
      rw [hmap, List.map_id]
  | hobj ps ih =>
    intro seen
    by_cases hs : Value.obj ps ∈ seen
    · exact plugVal_seen _ _ _ hs
    · rw [plugVal_obj ([] : List (Value × Value)) _ ps hs rfl, plugPairs_eq_map]
      have hmap : ps.map (fun p =>
            (plugVal [] (Value.obj ps :: seen) (Prod.fst p),
             plugVal [] (Value.obj ps :: seen) (Prod.snd p))) = ps.map id :=
        List.map_congr_left (fun p hp => by
          have h1 := (ih p hp).1 (Value.obj ps :: seen)
          have h2 := (ih p hp).2 (Value.obj ps :: seen)
          simp [h1, h2])
      rw [hmap, List.map_id]
  | hacomp h hs2 ih1 ih2 =>
    intro seen
    by_cases hs : Value.acomp h hs2 ∈ seen
    · exact plugVal_seen _ _ _ hs
    · exact plugVal_acomp _ _ h hs2 hs rfl

/-- `Plug` with no bindings returns the term unchanged. -/
theorem PlugValue_nil (v : Value) : PlugValue [] v = v :=
  plugVal_nil_env v []

/-- A pair of a list is an element of the accumulated object by logical
equality. -/
theorem memObj_refl (p : Value × Value) (qs : List (Value × Value))
    (hp : p ∈ qs) : Value.memObj p qs = true := by
  rw [Value.memObj_eq]
  refine List.any_eq_true.mpr ⟨p, hp, ?_⟩
  rw [Value.equal_refl, Value.equal_refl]
  rfl

/-- Object equality ignores the order of the key/value entries: any
permutation of the entries is logically equal. -/
theorem equal_obj_perm (ps qs : List (Value × Value)) (h : ps.Perm qs) :
    Value.equal (.obj ps) (.obj qs) = true := by
  rw [Value.equal_obj_iff]
  refine ⟨h.length_eq, ?_, ?_⟩
  · intro p hp
    exact ⟨p, h.mem_iff.mp hp, Value.equal_refl _, Value.equal_refl _⟩
  · intro q hq
    exact ⟨q, h.mem_iff.mpr hq, Value.equal_refl _, Value.equal_refl _⟩

/-- Set equality ignores the order of the elements: any permutation of
the element list is logically equal. -/
theorem equal_set_perm (as bs : List Value) (h : as.Perm bs) :
    Value.equal (.set as) (.set bs) = true := by
  rw [Value.equal_set_iff]
  refine ⟨h.length_eq, ?_, ?_⟩
  · intro a ha
    exact ⟨a, h.mem_iff.mp ha, Value.equal_refl _⟩
  · intro b hb
    exact ⟨b, h.mem_iff.mpr hb, Value.equal_refl _⟩

/-- C1: two complete-document rules that produce structurally unequal
values make the document assembly abort with a Conflict error of stable
code 1; a partial-object key mapped to two structurally distinct values
is likewise a Conflict with code 1; while a duplicate key mapped to an
equal value is not an error and collapses into a single key/value entry
of the result. -/
theorem C1_conflict_code_one (v w k : Value) (vs : List Value)
    (ps : List (Value × Value)) (hne : Value.equal v w = false)
    (hk : isStringV k = true) :
    (∃ e, completeDocValue (v :: w :: vs) = .error e ∧ errCode e = 1) ∧
    (∃ e, partialObjectDoc ((k, v) :: (k, w) :: ps) = .error e ∧
      errCode e = 1) ∧
    partialObjectDoc [(k, v), (k, v)] = .ok [(k, v)] := by
  refine ⟨?_, ?_, ?_⟩
  · refine ⟨.conflict "multiple values for complete documents", ?_, rfl⟩
    simp [completeDocValue, completeDocAux, hne]
  · refine ⟨.conflict "multiple values for object document keys", ?_, rfl⟩
    simp [partialObjectDoc, partialObjectAux, hk, objFind,
      Value.equal_refl, hne]
  · simp [partialObjectDoc, partialObjectAux, hk, objFind, Value.equal_refl]

theorem C1_conflict_code_one_witness :
    (∃ e, completeDocValue [Value.num 1, Value.num 2] = .error e ∧
      errCode e = 1) ∧
    (∃ e, partialObjectDoc
        [(Value.str "k", Value.num 1), (Value.str "k", Value.num 2)] =
      .error e ∧ errCode e = 1) ∧
    partialObjectDoc
        [(Value.str "k", Value.num 1), (Value.str "k", Value.num 1)] =
      .ok [(Value.str "k", Value.num 1)] :=
  C1_conflict_code_one (Value.num 1) (Value.num 2) (Value.str "k") [] []
    (by simp [Value.equal]) rfl

/-- C2: a mere failure — a unification mismatch between plugged ground
values, a term that does not resolve in the document tree, or a
registered built-in returning undefined — evaluates to the empty
solution list and never to an error, and a query body none of whose
expression sequences succeeds returns an empty result set whose
Undefined flag is true. -/
theorem C2_failure_backtracks (doc : Value) (ctx : List (Value × Value))
    (a b t : Value) (i j : Int) (name : String) (args : List Value)
    (hpa : PlugValue ctx a = .num i) (hpb : PlugValue ctx b = .num j)
    (hij : i ≠ j) (ht : resolveTerm doc (PlugValue ctx t) = none)
    (hreg : name ∈ builtinRegistry)
    (hbi : evalBuiltin name (args.map (PlugValue ctx)) = none) :
    evalExpr doc ctx (.eq a b) = .ok [] ∧
    evalExpr doc ctx (.term t) = .ok [] ∧
    evalExpr doc ctx (.call name args) = .ok [] ∧
    ∀ rs, evalBody doc [.eq a b] ctx = .ok rs → Undefined rs = true := by
  have h1 : evalExpr doc ctx (.eq a b) = .ok [] := by
    simp only [evalExpr]
    rw [hpa, hpb]
    simp [Value.equal, hij]
  refine ⟨h1, ?_, ?_, ?_⟩
  · simp [evalExpr, termTruthy, ht]
  · simp [evalExpr, hreg, hbi]
  · intro rs hrs
    simp only [evalBody, h1, evalBodyAll, Except.ok.injEq] at hrs
    subst hrs
    rfl

theorem C2_failure_backtracks_witness :
    evalExpr (Value.num 0) [] (.eq (Value.num 1) (Value.num 2)) = .ok [] ∧
    evalExpr (Value.num 0) [] (.term (Value.ref [])) = .ok [] ∧
    evalExpr (Value.num 0) [] (.call "lt" [Value.str "a"]) = .ok [] ∧
    ∀ rs, evalBody (Value.num 0) [.eq (Value.num 1) (Value.num 2)] [] =
      .ok rs → Undefined rs = true :=
  C2_failure_backtracks (Value.num 0) [] (Value.num 1) (Value.num 2)
    (Value.ref []) 1 2 "lt" [Value.str "a"]
    (PlugValue_nil _) (PlugValue_nil _) (by decide)
    (by rw [PlugValue_nil]; simp [resolveTerm])
    (by simp [builtinRegistry])
    (by simp [PlugValue_nil, evalBuiltin])

/-- C3: a reference whose lookup into a partial-set document succeeded
and which then tries to dereference the lookup result further aborts
with a runtime error naming the offending reference (the engine raises
it with code 2), rather than failing or being undefined. -/
theorem C3_set_deref_error (refStr : String) (elems : List Value)
    (key : Value) (suffix : List Value)
    (hmem : elems.any (fun e => Value.equal e key) = true)
    (hsuf : suffix ≠ []) :
    ∃ e, evalSetRef refStr elems key suffix = .error e ∧ errCode e = 2 ∧
      errMsg e = refStr ++ " attempts to dereference lookup result" := by
  refine ⟨.typeError (refStr ++ " attempts to dereference lookup result"),
    ?_, rfl, rfl⟩
  simp only [evalSetRef]
  rw [if_pos hmem, if_neg (fun h => hsuf (List.isEmpty_iff.mp h))]

theorem C3_set_deref_error_witness :
    ∃ e, evalSetRef "data.q[x][0]" [Value.num 1] (Value.num 1)
        [Value.num 0] = .error e ∧ errCode e = 2 ∧
      errMsg e = "data.q[x][0]" ++ " attempts to dereference lookup result" :=
  C3_set_deref_error "data.q[x][0]" [Value.num 1] (Value.num 1)
    [Value.num 0] (by simp [Value.equal]) (by simp)

/-- C4: `not expr` succeeds exactly when the isolated evaluation of
`expr` produced zero solutions, and its only solution environment is the
enclosing context unchanged — negation never adds bindings to the
enclosing scope. -/
theorem C4_negation (doc : Value) (ctx : List (Value × Value)) (e : Expr)
    (sols : List (List (Value × Value)))
    (he : evalExpr doc ctx e = .ok sols) :
    evalExpr doc ctx (.notE e) =
      (if sols.isEmpty then .ok [ctx] else .ok []) ∧
    ∀ rs, evalExpr doc ctx (.notE e) = .ok rs → ∀ c ∈ rs, c = ctx := by
  have h1 : evalExpr doc ctx (.notE e) =
      (if sols.isEmpty then .ok [ctx] else .ok []) := by
    simp only [evalExpr, he]
  refine ⟨h1, ?_⟩
  intro rs hrs c hc
  rw [h1] at hrs
  split at hrs
  · rw [Except.ok.injEq] at hrs
    subst hrs
    simpa using hc
  · rw [Except.ok.injEq] at hrs
    subst hrs
    exact absurd hc (List.not_mem_nil c)

theorem C4_negation_witness :
    (evalExpr (Value.num 0) [] (.notE (.term (Value.bool true))) =
      (if ([[]] : List (List (Value × Value))).isEmpty then
        .ok [([] : List (Value × Value))] else .ok [])) ∧
    ∀ rs, evalExpr (Value.num 0) [] (.notE (.term (Value.bool true))) =
      .ok rs → ∀ c ∈ rs, c = ([] : List (Value × Value)) :=
  C4_negation (Value.num 0) [] (.term (Value.bool true)) [[]]
    (by simp [evalExpr, termTruthy, resolveTerm, PlugValue_nil])

/-- C5: ground equality is structural — reflexive, symmetric in outcome,
insensitive to the order of object entries and of set elements, and
elementwise in order on arrays — and an equality expression over ground
(non-variable) plugged terms succeeds exactly when the two values are
logically equal. -/
theorem C5_ground_equality (a b : Value) (ps qs : List (Value × Value))
    (cs ds : List Value) (doc : Value) (hpq : ps.Perm qs)
    (hcd : cs.Perm ds) (ha : ∀ x, a ≠ Value.var x)
    (hb : ∀ x, b ≠ Value.var x) :
    Value.equal a a = true ∧
    Value.equal a b = Value.equal b a ∧
    Value.equal (.obj ps) (.obj qs) = true ∧
    Value.equal (.set cs) (.set ds) = true ∧
    (∀ es fs : List Value, Value.equal (.arr es) (.arr fs) = true ↔
      es.length = fs.length ∧
        ∀ p ∈ es.zip fs, Value.equal p.1 p.2 = true) ∧
    evalExpr doc [] (.eq a b) =
      (if Value.equal a b then .ok [[]] else .ok []) := by
  refine ⟨Value.equal_refl a, Value.equal_symm a b,
    equal_obj_perm ps qs hpq, equal_set_perm cs ds hcd, ?_, ?_⟩
  · intro es fs
    simp only [Value.equal]
    exact Value.equalList_iff es fs
  · simp only [evalExpr, PlugValue_nil]

theorem C5_ground_equality_witness :
    Value.equal (Value.num 1) (Value.num 1) = true ∧
    Value.equal (Value.num 1) (Value.str "s") =
      Value.equal (Value.str "s") (Value.num 1) ∧
    Value.equal
        (.obj [(Value.str "a", Value.num 1), (Value.str "b", Value.num 2)])
        (.obj [(Value.str "b", Value.num 2), (Value.str "a", Value.num 1)]) =
      true ∧
    Value.equal (.set [Value.num 1, Value.num 2])
        (.set [Value.num 2, Value.num 1]) = true ∧
    (∀ es fs : List Value, Value.equal (.arr es) (.arr fs) = true ↔
      es.length = fs.length ∧
        ∀ p ∈ es.zip fs, Value.equal p.1 p.2 = true) ∧
    evalExpr Value.null [] (.eq (Value.num 1) (Value.str "s")) =
      (if Value.equal (Value.num 1) (Value.str "s") then .ok [[]]
       else .ok []) :=
  C5_ground_equality (Value.num 1) (Value.str "s")
    [(Value.str "a", Value.num 1), (Value.str "b", Value.num 2)]
    [(Value.str "b", Value.num 2), (Value.str "a", Value.num 1)]
    [Value.num 1, Value.num 2] [Value.num 2, Value.num 1] Value.null
    (List.Perm.swap _ _ _) (List.Perm.swap _ _ _)
    (fun x h => Value.noConfusion h) (fun x h => Value.noConfusion h)

/-- C6 (amended): `Plug` always terminates — it is a total function even
on cyclic binding environments — and it is idempotent on every resolved
environment, one whose keys are variables none of which occurs in a
bound value. -/
theorem C6_plug_idempotent (env : List (Value × Value)) (t : Value)
    (hres : Resolved env) :
    PlugValue env (PlugValue env t) = PlugValue env t :=
  PlugValue_idem env hres t

theorem C6_plug_idempotent_witness :
    PlugValue [(Value.var "a", Value.num 1)]
        (PlugValue [(Value.var "a", Value.num 1)] (Value.var "a")) =
      PlugValue [(Value.var "a", Value.num 1)] (Value.var "a") :=
  C6_plug_idempotent [(Value.var "a", Value.num 1)] (Value.var "a")
    (by
      constructor
      · intro k hk
        simp only [envKeys, List.map_cons, List.map_nil,
          List.mem_singleton] at hk
        exact ⟨"a", hk⟩
      · intro p hp k hk
        simp only [envKeys, List.map_cons, List.map_nil,
          List.mem_singleton] at hk
        simp only [List.mem_singleton] at hp
        subst hk
        subst hp
        simp [occursIn])

/-- C6 fails as stated: on the cyclic environment `a→b, b→a` plugging
twice differs from plugging once, because each pass flips the variable
to the other end of the cycle. -/
theorem C6_cyclic_counterexample :
    PlugValue [(Value.var "a", Value.var "b"), (Value.var "b", Value.var "a")]
        (PlugValue
          [(Value.var "a", Value.var "b"), (Value.var "b", Value.var "a")]
          (Value.var "a")) ≠
      PlugValue
        [(Value.var "a", Value.var "b"), (Value.var "b", Value.var "a")]
        (Value.var "a") := by
  have hlka : lookupBinding
      [(Value.var "a", Value.var "b"), (Value.var "b", Value.var "a")]
      (Value.var "a") = some (Value.var "b") := by
    simp [lookupBinding]
  have hlkb : lookupBinding
      [(Value.var "a", Value.var "b"), (Value.var "b", Value.var "a")]
      (Value.var "b") = some (Value.var "a") := by
    simp [lookupBinding]
  have h1 : PlugValue
      [(Value.var "a", Value.var "b"), (Value.var "b", Value.var "a")]
      (Value.var "a") = Value.var "b" := by
    rw [PlugValue, plugVal_chase _ _ _ _ (by simp) hlka (by simp),
      plugVal_stop _ _ _ _ (by simp) hlkb (by simp)]
  have h2 : PlugValue
      [(Value.var "a", Value.var "b"), (Value.var "b", Value.var "a")]
      (Value.var "b") = Value.var "a" := by
    rw [PlugValue, plugVal_chase _ _ _ _ (by simp) hlkb (by simp),
      plugVal_stop _ _ _ _ (by simp) hlka (by simp)]
  rw [h1, h2]
  simp

/-- C7 (amended): object/object unification in `ast.Unify` is positional
— whenever the two objects have the same number of entries it unifies
the value lists pointwise and ignores the keys entirely, so the result
depends only on the entry counts and the value lists. -/
theorem C7_unify_obj_positional (safe : Finset String)
    (ps qs ps2 qs2 : List (Value × Value)) (s : UState)
    (h1 : ps.map Prod.snd = ps2.map Prod.snd)
    (h2 : qs.map Prod.snd = qs2.map Prod.snd) :
    unifyV safe (.obj ps) (.obj qs) s =
      unifyV safe (.obj ps2) (.obj qs2) s := by
  have l1 : ps.length = ps2.length := by
    have h := congrArg List.length h1
    simpa using h
  have l2 : qs.length = qs2.length := by
    have h := congrArg List.length h2
    simpa using h
  simp only [unifyV]
  rw [l1, l2, h1, h2]

theorem C7_unify_obj_positional_witness :
    unifyV ∅ (.obj [(Value.str "a", Value.var "x")])
        (.obj [(Value.str "k", Value.num 1)]) ⟨∅, []⟩ =
      unifyV ∅ (.obj [(Value.str "b", Value.var "x")])
        (.obj [(Value.str "l", Value.num 1)]) ⟨∅, []⟩ :=
  C7_unify_obj_positional ∅ [(Value.str "a", Value.var "x")]
    [(Value.str "k", Value.num 1)] [(Value.str "b", Value.var "x")]
    [(Value.str "l", Value.num 1)] ⟨∅, []⟩ rfl rfl

/-- C7 fails as stated: two singleton objects with different key sets
still unify their values positionally, so the variable under the first
object's key becomes safe although the keys disagree. -/
theorem C7_different_keys_counterexample :
    Unify ∅ (.obj [(Value.str "a", Value.var "x")])
      (.obj [(Value.str "b", Value.num 1)]) = {"x"} := by
  simp [Unify, unifyV, unifyList, markSafe, msWork, msErase, msDeps,
    msTrig, varList, lookupUnknown, eraseKey, isSafe]

/-- C8 (amended): a rule emitting a non-string object key aborts the
query, but the error is raised with the TypeError code 2; it does not
carry a distinct code 4. -/
theorem C8_illegal_key_code (k v : Value) (ps : List (Value × Value))
    (hk : isStringV k = false) :
    ∃ e, partialObjectDoc ((k, v) :: ps) = .error e ∧ errCode e = 2 := by
  refine ⟨.typeError "produced illegal object key", ?_, rfl⟩
  simp [partialObjectDoc, partialObjectAux, hk]

theorem C8_illegal_key_code_witness :
    ∃ e, partialObjectDoc [(Value.obj [], Value.num 1)] = .error e ∧
      errCode e = 2 :=
  C8_illegal_key_code (Value.obj []) (Value.num 1) [] rfl

/-- C8 fails as stated: the illegal-object-key error observed for an
object-typed key carries code 2 — the TypeError code — and no error kind
of the engine carries code 4 at all. -/
theorem C8_no_code_four_counterexample :
    (∃ e, partialObjectDoc [(Value.obj [], Value.num 1)] = .error e ∧
      errCode e = errCode (.typeError "")) ∧
    ∀ e : EvalError, errCode e ≠ 4 := by
  constructor
  · exact ⟨.typeError "produced illegal object key",
      by simp [partialObjectDoc, partialObjectAux, isStringV], rfl⟩
  · intro e
    cases e <;> simp [errCode]

/-- C9: a single-term expression succeeds exactly when the plugged term
resolves to a defined value other than `false`: boolean true, null, a
negative number, the empty string, empty arrays, objects and sets, and
a comprehension that collected zero results all succeed; boolean false
fails, and so does a term whose resolution is undefined. -/
theorem C9_term_expr_truthiness (doc : Value)
    (ctx : List (Value × Value)) (t : Value) (hd : Value) :
    evalExpr doc ctx (.term t) =
      (if termTruthy doc (PlugValue ctx t) then .ok [ctx] else .ok []) ∧
    (termTruthy doc (PlugValue ctx t) = true ↔
      ∃ w, resolveTerm doc (PlugValue ctx t) = some w ∧
        w ≠ Value.bool false) ∧
    termTruthy doc (Value.bool true) = true ∧
    termTruthy doc Value.null = true ∧
    termTruthy doc (Value.num (-1)) = true ∧
    termTruthy doc (Value.str "") = true ∧
    termTruthy doc (Value.arr []) = true ∧
    termTruthy doc (Value.obj []) = true ∧
    termTruthy doc (Value.set []) = true ∧
    termTruthy doc (Value.acomp hd [Value.bool false]) = true ∧
    termTruthy doc (Value.bool false) = false := by
  refine ⟨by simp only [evalExpr], ?_, ?_, ?_, ?_, ?_, ?_, ?_, ?_, ?_, ?_⟩
  · cases hres : resolveTerm doc (PlugValue ctx t) with
    | none => simp [termTruthy, hres]
    | some w => simp [termTruthy, hres]
  · simp [termTruthy, resolveTerm]
  · simp [termTruthy, resolveTerm]
  · simp [termTruthy, resolveTerm]
  · simp [termTruthy, resolveTerm]
  · simp [termTruthy, resolveTerm]
  · simp [termTruthy, resolveTerm]
  · simp [termTruthy, resolveTerm]
  · simp [termTruthy, resolveTerm, List.attach, List.attachWith]
  · simp [termTruthy, resolveTerm]

/-- C10 (amended): the symbolic safety unifier is not symmetric on the
nose, but it is symmetric modulo the safe set — swapping the term
arguments changes the unified set only within the already-safe
variables. -/
theorem C10_unify_symmetric_mod_safe (safe : Finset String)
    (a b : Value) :
    Unify safe a b ∪ safe = Unify safe b a ∪ safe :=
  Unify_symm_mod_safe safe a b

/-- C10 fails as stated: with both variables already safe, analysing
`x = y` unifies `x` while the swapped call unifies `y`. -/
theorem C10_asymmetry_counterexample :
    Unify {"x", "y"} (Value.var "x") (Value.var "y") ≠
      Unify {"x", "y"} (Value.var "y") (Value.var "x") := by
  have h1 : Unify {"x", "y"} (Value.var "x") (Value.var "y") = {"x"} := by
    simp [Unify, unifyV, unifyList, markSafe, msWork, msErase, msDeps,
      msTrig, varList, lookupUnknown, eraseKey, isSafe]
  have h2 : Unify {"x", "y"} (Value.var "y") (Value.var "x") = {"y"} := by
    simp [Unify, unifyV, unifyList, markSafe, msWork, msErase, msDeps,
      msTrig, varList, lookupUnknown, eraseKey, isSafe]
  rw [h1, h2]
  intro h
  have hx := Finset.ext_iff.mp h "x"
  simp at hx

end Opa
